import Mathlib

/-!
Verification of `download_generator.py`, a podcast RSS mirroring tool.

The development shallowly embeds the script's data flow:
  * the string manipulation used to derive destination filenames
    (`urllib.parse.urlparse`, `urllib.parse.unquote`, `os.path.basename`,
    `re.sub`-based sanitization),
  * the path arithmetic (`os.path.join`, `os.path.normpath`,
    `os.path.abspath`, `os.path.relpath`),
  * the XML tree (`xml.etree.ElementTree`) operations actually used
    (`find`, `findall`, descendant search `.//tag`, `get`, `set`, `.text`),
  * the downloader (`download_file`) with the filesystem and network
    modelled as explicit state, and
  * the feed pipeline (`process_feed`, `update_feed_metadata`).

Machine-level effects (sockets, real clock, progress bars) are modelled by
explicit oracles: the network is a function from URL to an outcome, the
clock is a `UtcTime` record passed in, the filesystem is an association
list from path to byte size.
-/

set_option maxRecDepth 8000
set_option maxHeartbeats 1600000

namespace PodcastRss

/-! ## Python string primitives -/

/-- Characters deleted by `re.sub(r'[<>:"/\\|?*]', '', filename)` in
`PodcastDownloader.sanitize_filename`: exactly the nine characters of the
regex character class. -/
def isForbiddenChar (c : Char) : Bool :=
  c == '<' || c == '>' || c == ':' || c == '"' || c == '/' ||
  c == '\\' || c == '|' || c == '?' || c == '*'

/-- ASCII whitespace as recognised by Python `str.strip()` (space, tab,
newline, carriage return, vertical tab, form feed). -/
def pyIsSpace (c : Char) : Bool :=
  c == ' ' || c == '\t' || c == '\n' || c == '\r' || c == '\x0b' || c == '\x0c'

/-- Python `str.strip()` on a character list: drop whitespace from both ends. -/
def pyStripChars (l : List Char) : List Char :=
  ((l.dropWhile pyIsSpace).reverse.dropWhile pyIsSpace).reverse

/-- `PodcastDownloader.sanitize_filename` (download_generator.py lines 21-24):
delete the characters of the class `[<>:"/\\|?*]`, strip surrounding
whitespace, then replace every remaining space with an underscore. -/
def sanitize_filename (s : String) : String :=
  let noBad := s.data.filter (fun c => !isForbiddenChar c)
  let stripped := pyStripChars noBad
  String.mk (stripped.map (fun c => if c == ' ' then '_' else c))

/-- `posixpath.basename`: the suffix after the final slash
(`p[p.rfind('/')+1:]`). -/
def os_basename (p : String) : String :=
  String.mk ((p.data.reverse.takeWhile (fun c => c != '/')).reverse)

/-! ## Percent decoding (`urllib.parse.unquote`) -/

/-- Value of a hexadecimal digit, if the character is one. -/
def hexVal (c : Char) : Option Nat :=
  if '0' ≤ c ∧ c ≤ '9' then some (c.toNat - '0'.toNat)
  else if 'a' ≤ c ∧ c ≤ 'f' then some (c.toNat - 'a'.toNat + 10)
  else if 'A' ≤ c ∧ c ≤ 'F' then some (c.toNat - 'A'.toNat + 10)
  else none

/-- Intermediate token of percent decoding: either an unescaped character
or a byte produced by a valid `%XX` escape. -/
inductive UqItem where
  | ch (c : Char)
  | byte (b : Nat)
deriving DecidableEq

/-- First pass of `unquote`: each valid `%XX` becomes a byte, an invalid
`%` stays a literal percent sign, all other characters pass through. -/
def unquoteScan : List Char → List UqItem
  | [] => []
  | '%' :: a :: b :: rest =>
    match hexVal a, hexVal b with
    | some ha, some hb => .byte (16 * ha + hb) :: unquoteScan rest
    | _, _ => .ch '%' :: unquoteScan (a :: b :: rest)
  | '%' :: rest => .ch '%' :: unquoteScan rest
  | c :: rest => .ch c :: unquoteScan rest

/-- Collect the maximal leading run of bytes. -/
def takeBytes : List UqItem → List Nat × List UqItem
  | .byte b :: rest =>
    let (bs, r) := takeBytes rest
    (b :: bs, r)
  | l => ([], l)

/-- UTF-8 decoding of a byte run with U+FFFD replacement on malformed
input, as performed by `bytes.decode('utf-8', errors='replace')` inside
`unquote`. The first argument is an explicit termination bound (any bound
at least the list length gives the decoder's value; the wrapper below
passes the length), which keeps the definition structurally recursive and
hence computable inside the kernel. -/
def utf8DecodeAux : Nat → List Nat → List Char
  | _, [] => []
  | 0, _ :: _ => []
  | fuel + 1, b :: rest =>
    if b < 0x80 then Char.ofNat b :: utf8DecodeAux fuel rest
    else if 0xC2 ≤ b ∧ b ≤ 0xDF then
      match rest with
      | b2 :: rest2 =>
        if 0x80 ≤ b2 ∧ b2 ≤ 0xBF then
          Char.ofNat ((b - 0xC0) * 64 + (b2 - 0x80)) :: utf8DecodeAux fuel rest2
        else Char.ofNat 0xFFFD :: utf8DecodeAux fuel (b2 :: rest2)
      | [] => [Char.ofNat 0xFFFD]
    else if 0xE0 ≤ b ∧ b ≤ 0xEF then
      match rest with
      | b2 :: rest2 =>
        if (b == 0xE0 && (0xA0 ≤ b2 && b2 ≤ 0xBF)) ||
           (b == 0xED && (0x80 ≤ b2 && b2 ≤ 0x9F)) ||
           (b != 0xE0 && b != 0xED && (0x80 ≤ b2 && b2 ≤ 0xBF)) then
          match rest2 with
          | b3 :: rest3 =>
            if 0x80 ≤ b3 ∧ b3 ≤ 0xBF then
              Char.ofNat ((b - 0xE0) * 4096 + (b2 - 0x80) * 64 + (b3 - 0x80)) ::
                utf8DecodeAux fuel rest3
            else Char.ofNat 0xFFFD :: utf8DecodeAux fuel (b3 :: rest3)
          | [] => [Char.ofNat 0xFFFD]
        else Char.ofNat 0xFFFD :: utf8DecodeAux fuel (b2 :: rest2)
      | [] => [Char.ofNat 0xFFFD]
    else if 0xF0 ≤ b ∧ b ≤ 0xF4 then
      match rest with
      | b2 :: rest2 =>
        if (b == 0xF0 && (0x90 ≤ b2 && b2 ≤ 0xBF)) ||
           (b == 0xF4 && (0x80 ≤ b2 && b2 ≤ 0x8F)) ||
           (b != 0xF0 && b != 0xF4 && (0x80 ≤ b2 && b2 ≤ 0xBF)) then
          match rest2 with
          | b3 :: rest3 =>
            if 0x80 ≤ b3 ∧ b3 ≤ 0xBF then
              match rest3 with
              | b4 :: rest4 =>
                if 0x80 ≤ b4 ∧ b4 ≤ 0xBF then
                  Char.ofNat ((b - 0xF0) * 262144 + (b2 - 0x80) * 4096 +
                    (b3 - 0x80) * 64 + (b4 - 0x80)) :: utf8DecodeAux fuel rest4
                else Char.ofNat 0xFFFD :: utf8DecodeAux fuel (b4 :: rest4)
              | [] => [Char.ofNat 0xFFFD]
            else Char.ofNat 0xFFFD :: utf8DecodeAux fuel (b3 :: rest3)
          | [] => [Char.ofNat 0xFFFD]
        else Char.ofNat 0xFFFD :: utf8DecodeAux fuel (b2 :: rest2)
      | [] => [Char.ofNat 0xFFFD]
    else Char.ofNat 0xFFFD :: utf8DecodeAux fuel rest

def utf8Decode (l : List Nat) : List Char :=
  utf8DecodeAux l.length l

/-- Second pass of `unquote`: decode each maximal byte run as UTF-8. The
explicit bound again only serves structural termination. -/
def decodeItemsAux : Nat → List UqItem → List Char
  | _, [] => []
  | 0, _ :: _ => []
  | fuel + 1, .ch c :: rest => c :: decodeItemsAux fuel rest
  | fuel + 1, .byte b :: rest =>
    utf8Decode (b :: (takeBytes rest).1) ++ decodeItemsAux fuel (takeBytes rest).2

def decodeItems (l : List UqItem) : List Char :=
  decodeItemsAux l.length l

/-- `urllib.parse.unquote` with the default UTF-8 encoding and `replace`
error handling: `%XX` escapes become bytes, maximal byte runs are decoded
as UTF-8. -/
def unquote (s : String) : String :=
  String.mk (decodeItems (unquoteScan s.data))

/-! ## URL parsing (`urllib.parse.urlparse(...).path`) -/

/-- Characters allowed in a URL scheme (letters, digits, `+`, `-`, `.`). -/
def schemeChar (c : Char) : Bool :=
  c.isAlpha || c.isDigit || c == '+' || c == '-' || c == '.'

/-- Schemes for which `urlparse` splits the `;parameters` part
(`urllib.parse.uses_params`). -/
def usesParams : List String :=
  ["", "ftp", "hdl", "prospero", "http", "imap", "https", "shttp", "rtsp",
   "rtspu", "sip", "sips", "mms", "sftp", "tel"]

/-- First index of `c` at or after `start` (Python `str.find(c, start)`). -/
def findIdxFrom (c : Char) (start : Nat) (l : List Char) : Option Nat :=
  ((l.drop start).findIdx? (fun x => x == c)).map (· + start)

/-- Index of the last slash (Python `str.rfind('/')`), if any. -/
def lastSlashIdx (l : List Char) : Option Nat :=
  (l.reverse.findIdx? (fun x => x == '/')).map (fun i => l.length - 1 - i)

/-- `urllib.parse._splitparams`: cut the path at the first `;` of its last
segment; only invoked when the path contains a `;`. -/
def splitparams (l : List Char) : List Char :=
  if l.contains '/' then
    match lastSlashIdx l with
    | some j =>
      match findIdxFrom ';' j l with
      | some i => l.take i
      | none => l
    | none => l
  else
    match l.findIdx? (fun x => x == ';') with
    | some i => l.take i
    | none => l

/-- Scheme splitting step of `urlsplit`: if the prefix before the first
colon is a nonempty run of scheme characters starting with a letter, strip
it (returning it lowercased) from the URL. -/
def splitScheme (l : List Char) : String × List Char :=
  match l.findIdx? (fun c => c == ':') with
  | none => ("", l)
  | some i =>
    if 0 < i then
      match l.head? with
      | some c0 =>
        if c0.isAlpha && (l.take i).all schemeChar then
          (String.mk ((l.take i).map Char.toLower), l.drop (i + 1))
        else ("", l)
      | none => ("", l)
    else ("", l)

/-- Netloc splitting step of `urlsplit`: after a leading `//`, drop the
network location, which extends to the first `/`, `?` or `#`. -/
def dropNetloc : List Char → List Char
  | '/' :: '/' :: t => t.dropWhile (fun c => c != '/' && c != '?' && c != '#')
  | l => l

/-- The `path` component of `urllib.parse.urlparse(url)` (CPython 3.11
`urlsplit` followed by the `_splitparams` step of `urlparse`): left-strip
C0 controls and spaces, remove tab/CR/LF, strip the scheme and the netloc,
cut fragment and query, then split `;parameters` for the schemes that use
them. -/
def urlparse_path (url : String) : String :=
  let l0 := url.data.dropWhile (fun c => c.toNat ≤ 0x20)
  let l1 := l0.filter (fun c => c != '\t' && c != '\r' && c != '\n')
  let sp := splitScheme l1
  let rest2 := dropNetloc sp.2
  let pathq := rest2.takeWhile (fun c => c != '#')
  let path := pathq.takeWhile (fun c => c != '?')
  let path2 :=
    if usesParams.contains sp.1 && path.contains ';' then splitparams path else path
  String.mk path2

/-! ## POSIX path arithmetic -/

/-- `posixpath.isabs`. -/
def pyIsAbs (p : String) : Bool :=
  p.data.head? == some '/'

/-- `posixpath.join` for two components. -/
def os_join (a b : String) : String :=
  if pyIsAbs b then b
  else if a.data.isEmpty || a.data.getLast? == some '/' then a ++ b
  else a ++ "/" ++ b

/-- Split a character list on `/`, keeping empty components
(Python `str.split('/')`). -/
def splitOnSlash : List Char → List (List Char)
  | [] => [[]]
  | '/' :: rest => [] :: splitOnSlash rest
  | c :: rest =>
    match splitOnSlash rest with
    | s :: ss => (c :: s) :: ss
    | [] => [[c]]

/-- Join components with `/` (Python `'/'.join`). -/
def joinWithSlash : List (List Char) → List Char
  | [] => []
  | [s] => s
  | s :: rest => s ++ '/' :: joinWithSlash rest

/-- `posixpath.normpath`: collapse duplicate slashes, drop `.` components,
resolve `..` components (keeping leading `..` on relative paths, keeping a
double leading slash). -/
def normpath (p : String) : String :=
  if p.data.isEmpty then "."
  else
    let slashes : Nat :=
      match p.data with
      | '/' :: '/' :: '/' :: _ => 1
      | '/' :: '/' :: _ => 2
      | '/' :: _ => 1
      | _ => 0
    let comps := splitOnSlash p.data
    let newComps := comps.foldl (fun acc comp =>
      if comp.isEmpty ∨ comp = ['.'] then acc
      else if comp ≠ ['.', '.'] then acc ++ [comp]
      else if slashes == 0 ∧ acc.isEmpty then acc ++ [comp]
      else if acc.getLast? = some ['.', '.'] then acc ++ [comp]
      else if acc.isEmpty then acc
      else acc.dropLast) []
    let res := List.replicate slashes '/' ++ joinWithSlash newComps
    if res.isEmpty then "." else String.mk res

/-- `posixpath.abspath` with the working directory passed explicitly. -/
def abspath (cwd p : String) : String :=
  normpath (if pyIsAbs p then p else os_join cwd p)

/-- Length of the common prefix of two component lists
(`genericpath.commonprefix` on the split lists). -/
def commonLen : List (List Char) → List (List Char) → Nat
  | a :: as, b :: bs => if a = b then commonLen as bs + 1 else 0
  | _, _ => 0

/-- `posixpath.relpath(path, start)` with the working directory passed
explicitly. -/
def os_relpath (cwd p start : String) : String :=
  let pl := (splitOnSlash (abspath cwd p).data).filter (fun x => !x.isEmpty)
  let sl := (splitOnSlash (abspath cwd start).data).filter (fun x => !x.isEmpty)
  let i := commonLen sl pl
  let rel := List.replicate (sl.length - i) ['.', '.'] ++ pl.drop i
  if rel.isEmpty then "." else String.mk (joinWithSlash rel)

/-! ## XML element trees (`xml.etree.ElementTree`)

An element has a (namespace-qualified) tag, an attribute dictionary
(modelled as an association list with unique keys, the invariant the XML
parser guarantees), optional text, and an ordered child list. -/

inductive Element where
  | mk (tag : String) (attrib : List (String × String)) (text : Option String)
       (children : List Element)

mutual

def decEqElement : (e e' : Element) → Decidable (e = e')
  | .mk t a x cs, .mk t' a' x' cs' =>
    if h1 : t = t' then
      if h2 : a = a' then
        if h3 : x = x' then
          match decEqListElement cs cs' with
          | isTrue h4 => isTrue (by rw [h1, h2, h3, h4])
          | isFalse h4 => isFalse (fun h => by cases h; exact h4 rfl)
        else isFalse (fun h => by cases h; exact h3 rfl)
      else isFalse (fun h => by cases h; exact h2 rfl)
    else isFalse (fun h => by cases h; exact h1 rfl)

def decEqListElement : (l l' : List Element) → Decidable (l = l')
  | [], [] => isTrue rfl
  | [], _ :: _ => isFalse (fun h => by cases h)
  | _ :: _, [] => isFalse (fun h => by cases h)
  | c :: cs, c' :: cs' =>
    match decEqElement c c' with
    | isTrue h1 =>
      match decEqListElement cs cs' with
      | isTrue h2 => isTrue (by rw [h1, h2])
      | isFalse h2 => isFalse (fun h => by cases h; exact h2 rfl)
    | isFalse h1 => isFalse (fun h => by cases h; exact h1 rfl)

end

instance : DecidableEq Element := decEqElement

def Element.tag : Element → String
  | .mk t _ _ _ => t

def Element.attrib : Element → List (String × String)
  | .mk _ a _ _ => a

def Element.textVal : Element → Option String
  | .mk _ _ x _ => x

def Element.children : Element → List Element
  | .mk _ _ _ cs => cs

/-- `element.get(key)`: value of an attribute, or `None`. -/
def attrGet (e : Element) (k : String) : Option String :=
  (e.attrib.find? (fun q => q.1 == k)).map (fun q => q.2)

/-- Replace the entry for `k` in an attribute dictionary, or append it. -/
def setPair (k v : String) : List (String × String) → List (String × String)
  | [] => [(k, v)]
  | (k', v') :: rest => if k' == k then (k, v) :: rest else (k', v') :: setPair k v rest

/-- `element.set(key, value)`. -/
def Element.setAttr (e : Element) (k v : String) : Element :=
  .mk e.tag (setPair k v e.attrib) e.textVal e.children

/-- `element.text = value`. -/
def Element.setText (e : Element) (v : String) : Element :=
  .mk e.tag e.attrib (some v) e.children

/-- `element.find(tag)` for a plain tag: first direct child with that tag. -/
def findChild (e : Element) (t : String) : Option Element :=
  e.children.find? (fun c => c.tag == t)

/-- `element.find('.//tag')` applied to a child list: first element with
the given tag among all descendants, in document (preorder) order. -/
def listFindDesc (t : String) : List Element → Option Element
  | [] => none
  | .mk tg a x cs :: rest =>
    if tg == t then some (.mk tg a x cs)
    else
      match listFindDesc t cs with
      | some e => some e
      | none => listFindDesc t rest

/-- In-place mutation of the element `element.find('.//tag')` returns:
rewrite the first tag-matching descendant with `f`, leaving the list
unchanged (`none`) when there is no match. -/
def listUpdDesc (t : String) (f : Element → Element) : List Element → Option (List Element)
  | [] => none
  | .mk tg a x cs :: rest =>
    if tg == t then some (f (.mk tg a x cs) :: rest)
    else
      match listUpdDesc t f cs with
      | some cs' => some (.mk tg a x cs' :: rest)
      | none =>
        match listUpdDesc t f rest with
        | some rest' => some (.mk tg a x cs :: rest')
        | none => none

/-- `updFirstDesc e t f`: rewrite (in place) the first descendant of `e`
with tag `t`, if any. -/
def updFirstDesc (e : Element) (t : String) (f : Element → Element) : Element :=
  match listUpdDesc t f e.children with
  | some cs' => .mk e.tag e.attrib e.textVal cs'
  | none => e

/-- In-place mutation of the element `element.find(tag)` returns: rewrite
the first direct child with tag `t`. -/
def listUpdChild (t : String) (f : Element → Element) : List Element → Option (List Element)
  | [] => none
  | c :: rest =>
    if c.tag == t then some (f c :: rest)
    else (listUpdChild t f rest).map (fun r => c :: r)

def updFirstChild (e : Element) (t : String) (f : Element → Element) : Element :=
  match listUpdChild t f e.children with
  | some cs' => .mk e.tag e.attrib e.textVal cs'
  | none => e

/-- In-place mutation of the element `channel.find('image/url')` returns:
the first `url` child of an `image` child, in document order of the path
(each `image` child is tried in order, the first with a `url` child wins). -/
def listUpdImageUrl (f : Element → Element) : List Element → Option (List Element)
  | [] => none
  | .mk tg a x cs :: rest =>
    if tg == "image" then
      match listUpdChild "url" f cs with
      | some cs' => some (.mk tg a x cs' :: rest)
      | none => (listUpdImageUrl f rest).map (fun r => .mk tg a x cs :: r)
    else (listUpdImageUrl f rest).map (fun r => .mk tg a x cs :: r)

/-! ## Downloader state -/

/-- Outcome of the streaming HTTP GET for one URL: success with a body of
`size` bytes; an exception raised by `requests.get` itself, before the
destination file is opened; or an exception in mid-transfer, after
`written` bytes were already written, leaving that partial file on disk. -/
inductive NetResult where
  | ok (size : Nat)
  | failEarly
  | failMid (written : Nat)
deriving DecidableEq

/-- Filesystem and console state threaded through the run: the files on
disk (path and byte size) and the list of network transfers attempted
(url and destination), in order. -/
structure DiskState where
  fs : List (String × Nat)
  log : List (String × String)
deriving DecidableEq

/-- Byte size of the file at `p`, if it exists (`os.path.getsize`). -/
def fsLookup (fs : List (String × Nat)) (p : String) : Option Nat :=
  (fs.find? (fun q => q.1 == p)).map (fun q => q.2)

/-- `os.path.exists`. -/
def fsHas (fs : List (String × Nat)) (p : String) : Bool :=
  (fsLookup fs p).isSome

/-- The destination filename computed at line 32 of download_generator.py:
`self.sanitize_filename(os.path.basename(unquote(urlparse(url).path)))`. -/
def derived_filename (url : String) : String :=
  sanitize_filename (os_basename (unquote (urlparse_path url)))

/-- `PodcastDownloader.download_file` (download_generator.py lines 26-56):
empty or missing URL returns `None`; otherwise derive the sanitized
filename from the URL path, skip the transfer if the destination already
exists, else stream the body to disk, catching any exception (which can
leave a partial file behind) and returning `None` on failure. -/
def download_file (net : String → NetResult) (st : DiskState) (url : Option String)
    (destination_folder : String) : Option String × DiskState :=
  match url with
  | none => (none, st)
  | some u =>
    if u.data.isEmpty then (none, st)
    else
      let destination := os_join destination_folder (derived_filename u)
      if fsHas st.fs destination then (some destination, st)
      else
        match net u with
        | .ok sz =>
          (some destination, ⟨st.fs ++ [(destination, sz)], st.log ++ [(u, destination)]⟩)
        | .failEarly => (none, ⟨st.fs, st.log ++ [(u, destination)]⟩)
        | .failMid k =>
          (none, ⟨st.fs ++ [(destination, k)], st.log ++ [(u, destination)]⟩)

/-! ## The feed pipeline -/

/-- Output folder and process working directory (the latter only matters
to `os.path.relpath`/`abspath` when the output folder is relative). -/
structure Config where
  cwd : String
  output_folder : String
deriving DecidableEq

def media_folder (cfg : Config) : String := os_join cfg.output_folder "media"

def images_folder (cfg : Config) : String := os_join cfg.output_folder "images"

/-- The qualified tag `ElementTree` stores for
`itunes:image` elements. -/
def itunesImageTag : String :=
  "\x7bhttp://www.itunes.com/dtds/podcast-1.0.dtd\x7dimage"

/-- The qualified tag `ElementTree` stores for `atom:link` elements. -/
def atomLinkTag : String :=
  "\x7bhttp://www.w3.org/2005/Atom\x7dlink"

/-- The cover-image step of `process_feed` (lines 72-84): find the first
`itunes:image` descendant of the channel, download its `href`, and on
success rewrite that element's `href` and the text of the channel's
`image/url` element (if present) to the output-relative path. -/
def coverStep (net : String → NetResult) (cfg : Config) (st : DiskState)
    (ch : Element) : DiskState × Element :=
  match listFindDesc itunesImageTag ch.children with
  | none => (st, ch)
  | some img =>
    let dl := download_file net st (attrGet img "href") (images_folder cfg)
    match dl.1 with
    | none => (dl.2, ch)
    | some p =>
      let rel := os_relpath cfg.cwd p cfg.output_folder
      let ch1 := updFirstDesc ch itunesImageTag (fun e => e.setAttr "href" rel)
      let ch2 :=
        match listUpdImageUrl (fun e => e.setText rel) ch1.children with
        | some cs => Element.mk ch1.tag ch1.attrib ch1.textVal cs
        | none => ch1
      (dl.2, ch2)

/-- The episode-image step of the item loop (lines 102-110): find the
first `itunes:image` descendant of the item, download its `href`, and on
success rewrite that element's `href`. -/
def imageStep (net : String → NetResult) (cfg : Config) (st : DiskState)
    (item : Element) : DiskState × Element :=
  match listFindDesc itunesImageTag item.children with
  | none => (st, item)
  | some img =>
    let dl := download_file net st (attrGet img "href") (images_folder cfg)
    match dl.1 with
    | none => (dl.2, item)
    | some p =>
      (dl.2, updFirstDesc item itunesImageTag
        (fun e => e.setAttr "href" (os_relpath cfg.cwd p cfg.output_folder)))

/-- One iteration of the item loop (lines 90-110). The enclosure branch
first evaluates `os.path.basename(audio_url)` for the progress-bar label,
which raises `TypeError` when the enclosure has no `url` attribute; this
uncaught exception aborts the run, hence the `Except`. On a successful
download the enclosure's `url` is rewritten to the relative path and its
`length` to the on-disk size. -/
def processItem (net : String → NetResult) (cfg : Config) (st : DiskState)
    (item : Element) : Except String (DiskState × Element) :=
  match findChild item "enclosure" with
  | none => .ok (imageStep net cfg st item)
  | some enc =>
    match attrGet enc "url" with
    | none => .error "TypeError: expected str, bytes or os.PathLike object, not NoneType"
    | some audio_url =>
      let dl := download_file net st (some audio_url) (media_folder cfg)
      match dl.1 with
      | none => .ok (imageStep net cfg dl.2 item)
      | some p =>
        let rel := os_relpath cfg.cwd p cfg.output_folder
        let len := Nat.repr ((fsLookup dl.2.fs p).getD 0)
        let item1 := updFirstChild item "enclosure"
          (fun e => (e.setAttr "url" rel).setAttr "length" len)
        .ok (imageStep net cfg dl.2 item1)

/-- The item loop over the channel's children: `channel.findall('item')`
yields the `item`-tagged children in order and each is mutated in place;
other children are untouched. -/
def processChildren (net : String → NetResult) (cfg : Config) (st : DiskState) :
    List Element → Except String (DiskState × List Element)
  | [] => .ok (st, [])
  | c :: rest =>
    if c.tag == "item" then
      match processItem net cfg st c with
      | .error e => .error e
      | .ok (st1, c') =>
        match processChildren net cfg st1 rest with
        | .error e => .error e
        | .ok (st2, rest') => .ok (st2, c' :: rest')
    else
      match processChildren net cfg st rest with
      | .error e => .error e
      | .ok (st2, rest') => .ok (st2, c :: rest')

/-- `PodcastDownloader.update_feed_metadata` (lines 120-130): set the text
of the channel's `lastBuildDate` child (if present) to the formatted
current UTC time, and set `href='feed.xml'` on every direct `atom:link`
child whose `rel` attribute equals `self`. -/
structure UtcTime where
  wday : Nat
  day : Nat
  month : Nat
  year : Nat
  hour : Nat
  minute : Nat
  second : Nat
deriving DecidableEq

/-- Abbreviated C-locale day name used by `strftime('%a')`
(`datetime.weekday()` numbers Monday as 0). -/
def wdayName (n : Nat) : String :=
  (["Mon", "Tue", "Wed", "Thu", "Fri", "Sat", "Sun"].get? n).getD ""

/-- Abbreviated C-locale month name used by `strftime('%b')`. -/
def monthName (n : Nat) : String :=
  ((["Jan", "Feb", "Mar", "Apr", "May", "Jun", "Jul", "Aug", "Sep", "Oct",
     "Nov", "Dec"]).get? (n - 1)).getD ""

/-- Two-digit zero padding (`%d`, `%H`, `%M`, `%S`). -/
def pad2 (n : Nat) : String :=
  if n < 10 then "0" ++ Nat.repr n else Nat.repr n

/-- `datetime.utcnow().strftime('%a, %d %b %Y %H:%M:%S +0000')`. -/
def formatLastBuild (t : UtcTime) : String :=
  wdayName t.wday ++ ", " ++ pad2 t.day ++ " " ++ monthName t.month ++ " " ++
  Nat.repr t.year ++ " " ++ pad2 t.hour ++ ":" ++ pad2 t.minute ++ ":" ++
  pad2 t.second ++ " +0000"

def update_feed_metadata (now : UtcTime) (ch : Element) : Element :=
  let ch1 :=
    match listUpdChild "lastBuildDate" (fun e => e.setText (formatLastBuild now)) ch.children with
    | some cs => Element.mk ch.tag ch.attrib ch.textVal cs
    | none => ch
  Element.mk ch1.tag ch1.attrib ch1.textVal (ch1.children.map (fun c =>
    if c.tag == atomLinkTag ∧ attrGet c "rel" = some "self" then
      c.setAttr "href" "feed.xml"
    else c))

/-- Replace (in place) the first `channel` child of the root. -/
def replaceChannel (root ch' : Element) : Element :=
  match listUpdChild "channel" (fun _ => ch') root.children with
  | some cs => Element.mk root.tag root.attrib root.textVal cs
  | none => root

/-- `process_feed` after the feed document has been fetched and parsed
(lines 68-117): locate the channel (`root.find('channel')`; a missing
channel makes the subsequent attribute access raise), run the cover step,
the item loop and the metadata update, and return the mutated tree that is
then serialized to `feed.xml`. -/
def process_feed_tree (net : String → NetResult) (cfg : Config) (now : UtcTime)
    (st : DiskState) (root : Element) : Except String (DiskState × Element) :=
  match findChild root "channel" with
  | none => .error "AttributeError: NoneType has no attribute find"
  | some ch =>
    let cov := coverStep net cfg st ch
    match processChildren net cfg cov.1 cov.2.children with
    | .error e => .error e
    | .ok (st2, cs2) =>
      let ch2 := Element.mk cov.2.tag cov.2.attrib cov.2.textVal cs2
      let ch3 := update_feed_metadata now ch2
      .ok (st2, replaceChannel root ch3)

/-- Result of `requests.get(rss_url)` at the top of `process_feed`: either
an exception raised by the request, or a response carrying an HTTP status
code and a body. -/
inductive FetchResult where
  | netError (msg : String)
  | response (status : Nat) (body : String)

/-- The whole run of `process_feed` (lines 58-117): a request exception
propagates (it is only caught by `main`'s top-level handler); otherwise the
response body is handed to `ET.fromstring` — the status code is never
inspected — and a parse failure propagates likewise. `parse` stands for
`ET.fromstring`, mapping a body to its document tree when it is
well-formed XML. -/
def process_feed_run (net : String → NetResult) (cfg : Config) (now : UtcTime)
    (st : DiskState) (fetch : FetchResult) (parse : String → Option Element) :
    Except String (DiskState × Element) :=
  match fetch with
  | .netError m => .error m
  | .response _status body =>
    match parse body with
    | none => .error "ParseError: not well-formed XML"
    | some root => process_feed_tree net cfg now st root

/-! ## Derived notions used by the statements -/

/-- The tag-and-nesting skeleton of a child list: erase all attributes and
text, recursively. Two lists with the same skeleton have the same element
count, order and tags at every level. -/
def shapeL : List Element → List Element
  | [] => []
  | .mk t _ _ cs :: rest => .mk t [] none (shapeL cs) :: shapeL rest

/-- The skeleton of one element. -/
def shapeE (e : Element) : Element :=
  .mk e.tag [] none (shapeL e.children)

/-- The `item`-tagged children of a channel, in order
(`channel.findall('item')`). -/
def itemsOf (ch : Element) : List Element :=
  ch.children.filter (fun c => c.tag == "item")

/-- Filesystem extension: every file of `f`, with its size, is present
unchanged in `g`. -/
def fsLe (f g : List (String × Nat)) : Prop :=
  ∀ p n, fsLookup f p = some n → fsLookup g p = some n

/-- Modelled from the claim's words (C5): the characters said to be
removed from the decoded segment. -/
def claimBadChars : List Char :=
  ['<', '>', ':', '"', '/', '\\', '|', '?', '*']

/-- Modelled from the claim's words (C5): the last segment of a path,
read off left to right by restarting at every slash. -/
def lastSegment (l : List Char) : List Char :=
  l.foldl (fun acc c => if c == '/' then [] else acc ++ [c]) []

/-- Modelled from the claim's words (C5), in the claim's order: take the
URL path's last segment, then percent-decode that segment, then remove
the claimed characters, then trim surrounding whitespace, then replace
each remaining space with an underscore. -/
def claim_filename_order (url : String) : String :=
  let seg := lastSegment (urlparse_path url).data
  let dec := (unquote (String.mk seg)).data
  let removed := dec.filter (fun c => !(claimBadChars.contains c))
  let trimmed := pyStripChars removed
  String.mk (trimmed.map (fun c => if c == ' ' then '_' else c))

/-- The amended order: percent-decode the whole path first, then take the
last segment, then remove the claimed characters, trim, and replace
spaces with underscores. -/
def amended_filename_order (url : String) : String :=
  let dec := (unquote (urlparse_path url)).data
  let seg := lastSegment dec
  let removed := seg.filter (fun c => !(claimBadChars.contains c))
  let trimmed := pyStripChars removed
  String.mk (trimmed.map (fun c => if c == ' ' then '_' else c))

/-! ## Fuel-bounded evaluators

`listFindDesc` and `listUpdDesc` recurse through the nested tree and are
compiled by well-founded recursion, which the kernel cannot reduce. The
following mirrors take an explicit fuel bound, are structurally recursive
(hence kernel-computable), and return `none` exactly when the fuel runs
out; soundness lemmas below transport any `some` result to the original
functions. They exist only so that concrete runs can be evaluated inside
`decide`/`rfl` proofs. -/

def lfdF : Nat → String → List Element → Option (Option Element)
  | 0, _, _ => none
  | _ + 1, _, [] => some none
  | fuel + 1, t, .mk tg a x cs :: rest =>
    if tg == t then some (some (.mk tg a x cs))
    else
      match lfdF fuel t cs with
      | none => none
      | some (some e) => some (some e)
      | some none => lfdF fuel t rest

def ludF : Nat → String → (Element → Element) → List Element →
    Option (Option (List Element))
  | 0, _, _, _ => none
  | _ + 1, _, _, [] => some none
  | fuel + 1, t, f, .mk tg a x cs :: rest =>
    if tg == t then some (some (f (.mk tg a x cs) :: rest))
    else
      match ludF fuel t f cs with
      | none => none
      | some (some cs') => some (some (.mk tg a x cs' :: rest))
      | some none =>
        match ludF fuel t f rest with
        | none => none
        | some (some rest') => some (some (.mk tg a x cs :: rest'))
        | some none => some none

def updFirstDescF (fuel : Nat) (e : Element) (t : String) (f : Element → Element) :
    Option Element :=
  match ludF fuel t f e.children with
  | none => none
  | some (some cs') => some (.mk e.tag e.attrib e.textVal cs')
  | some none => some e

def coverStepF (fuel : Nat) (net : String → NetResult) (cfg : Config)
    (st : DiskState) (ch : Element) : Option (DiskState × Element) :=
  match lfdF fuel itunesImageTag ch.children with
  | none => none
  | some none => some (st, ch)
  | some (some img) =>
    let dl := download_file net st (attrGet img "href") (images_folder cfg)
    match dl.1 with
    | none => some (dl.2, ch)
    | some p =>
      let rel := os_relpath cfg.cwd p cfg.output_folder
      match updFirstDescF fuel ch itunesImageTag (fun e => e.setAttr "href" rel) with
      | none => none
      | some ch1 =>
        let ch2 :=
          match listUpdImageUrl (fun e => e.setText rel) ch1.children with
          | some cs => Element.mk ch1.tag ch1.attrib ch1.textVal cs
          | none => ch1
        some (dl.2, ch2)

def imageStepF (fuel : Nat) (net : String → NetResult) (cfg : Config)
    (st : DiskState) (item : Element) : Option (DiskState × Element) :=
  match lfdF fuel itunesImageTag item.children with
  | none => none
  | some none => some (st, item)
  | some (some img) =>
    let dl := download_file net st (attrGet img "href") (images_folder cfg)
    match dl.1 with
    | none => some (dl.2, item)
    | some p =>
      match updFirstDescF fuel item itunesImageTag
          (fun e => e.setAttr "href" (os_relpath cfg.cwd p cfg.output_folder)) with
      | none => none
      | some item' => some (dl.2, item')

def processItemF (fuel : Nat) (net : String → NetResult) (cfg : Config)
    (st : DiskState) (item : Element) : Option (Except String (DiskState × Element)) :=
  match findChild item "enclosure" with
  | none => (imageStepF fuel net cfg st item).map Except.ok
  | some enc =>
    match attrGet enc "url" with
    | none => some (.error "TypeError: expected str, bytes or os.PathLike object, not NoneType")
    | some audio_url =>
      let dl := download_file net st (some audio_url) (media_folder cfg)
      match dl.1 with
      | none => (imageStepF fuel net cfg dl.2 item).map Except.ok
      | some p =>
        let rel := os_relpath cfg.cwd p cfg.output_folder
        let len := Nat.repr ((fsLookup dl.2.fs p).getD 0)
        let item1 := updFirstChild item "enclosure"
          (fun e => (e.setAttr "url" rel).setAttr "length" len)
        (imageStepF fuel net cfg dl.2 item1).map Except.ok

def processChildrenF (fuel : Nat) (net : String → NetResult) (cfg : Config)
    (st : DiskState) : List Element → Option (Except String (DiskState × List Element))
  | [] => some (.ok (st, []))
  | c :: rest =>
    if c.tag == "item" then
      match processItemF fuel net cfg st c with
      | none => none
      | some (.error e) => some (.error e)
      | some (.ok (st1, c')) =>
        match processChildrenF fuel net cfg st1 rest with
        | none => none
        | some (.error e) => some (.error e)
        | some (.ok (st2, rest')) => some (.ok (st2, c' :: rest'))
    else
      match processChildrenF fuel net cfg st rest with
      | none => none
      | some (.error e) => some (.error e)
      | some (.ok (st2, rest')) => some (.ok (st2, c :: rest'))

def processTreeF (fuel : Nat) (net : String → NetResult) (cfg : Config)
    (now : UtcTime) (st : DiskState) (root : Element) :
    Option (Except String (DiskState × Element)) :=
  match findChild root "channel" with
  | none => some (.error "AttributeError: NoneType has no attribute find")
  | some ch =>
    match coverStepF fuel net cfg st ch with
    | none => none
    | some cov =>
      match processChildrenF fuel net cfg cov.1 cov.2.children with
      | none => none
      | some (.error e) => some (.error e)
      | some (.ok (st2, cs2)) =>
        let ch2 := Element.mk cov.2.tag cov.2.attrib cov.2.textVal cs2
        some (.ok (st2, replaceChannel root (update_feed_metadata now ch2)))

def processRunF (fuel : Nat) (net : String → NetResult) (cfg : Config)
    (now : UtcTime) (st : DiskState) (fetch : FetchResult)
    (parse : String → Option Element) : Option (Except String (DiskState × Element)) :=
  match fetch with
  | FetchResult.netError m => some (.error m)
  | FetchResult.response _s body =>
    match parse body with
    | none => some (.error "ParseError: not well-formed XML")
    | some root => processTreeF fuel net cfg now st root

/-! ## Concrete fixtures used by witnesses and counterexamples -/

/-- A run configuration: process working directory `/`, output folder
`/out`. -/
def cfgX : Config := ⟨"/", "/out"⟩

/-- A fixed clock reading (Monday 2026-01-05 12:30:45 UTC). -/
def nowX : UtcTime := ⟨0, 5, 1, 2026, 12, 30, 45⟩

/-- Empty filesystem, empty transfer log. -/
def stEmpty : DiskState := ⟨[], []⟩

/-- A network where every GET succeeds with a 3-byte body. -/
def netOk3 : String → NetResult := fun _ => .ok 3

def encl7 : Element := .mk "enclosure" [("url", "http://h/a.mp3"), ("length", "1")] none []

def item7 : Element := .mk "item" [] none [encl7]

def chan7 : Element := .mk "channel" [] none [item7]

def feed7 : Element := .mk "rss" [] none [chan7]

/-- A parser oracle recognising one well-formed body. -/
def parse7 : String → Option Element := fun b => if b == "feedbody" then some feed7 else none

/-- A channel whose cover is defined only in the plain `image`/`url` form,
with no `itunes:image` anywhere. -/
def chan8 : Element :=
  .mk "channel" [] none [.mk "image" [] none [.mk "url" [] (some "http://h/c.jpg") []]]

def root8 : Element := .mk "rss" [] none [chan8]

/-- The text of the channel's plain `image`/`url` reference in a tree. -/
def imageUrlText (root : Element) : Option String :=
  (findChild root "channel").bind fun ch =>
    (findChild ch "image").bind fun im =>
      (findChild im "url").bind fun u => u.textVal

/-- A channel with no `lastBuildDate` element. -/
def chan6 : Element :=
  .mk "channel" [] none [.mk atomLinkTag [("rel", "self"), ("href", "http://h/feed.xml")] none []]

def root6 : Element := .mk "rss" [] none [chan6]

/-- A channel carrying both a `lastBuildDate` and an atom self link. -/
def chan6w : Element :=
  .mk "channel" [] none
    [.mk "lastBuildDate" [] (some "old") [],
     .mk atomLinkTag [("rel", "self"), ("href", "http://old/feed.xml")] none []]

def root6w : Element := .mk "rss" [] none [chan6w]

/-- Output of the run on `root6`: atom link rewritten, still no
`lastBuildDate`. -/
def chan6out : Element :=
  .mk "channel" [] none [.mk atomLinkTag [("rel", "self"), ("href", "feed.xml")] none []]

def tree6out : Element := .mk "rss" [] none [chan6out]

/-- Output of the run on `root6w`: timestamp written, atom link rewritten. -/
def chan6wOut : Element :=
  .mk "channel" [] none
    [.mk "lastBuildDate" [] (some "Mon, 05 Jan 2026 12:30:45 +0000") [],
     .mk atomLinkTag [("rel", "self"), ("href", "feed.xml")] none []]

def tree6wOut : Element := .mk "rss" [] none [chan6wOut]

/-- Output of the run on `feed7`: the enclosure rewritten to the local
relative path with corrected length. -/
def tree7out : Element :=
  .mk "rss" [] none
    [.mk "channel" [] none
      [.mk "item" [] none
        [.mk "enclosure" [("url", "media/a.mp3"), ("length", "3")] none []]]]

def st7out : DiskState :=
  ⟨[("/out/media/a.mp3", 3)], [("http://h/a.mp3", "/out/media/a.mp3")]⟩

/-- A network where every GET raises before the destination file is
opened. -/
def netFail : String → NetResult := fun _ => .failEarly

def imgC1 : Element := .mk itunesImageTag [("href", "http://h/img.jpg")] none []

def enclC1 : Element := .mk "enclosure" [("url", "http://h/a.mp3"), ("length", "999")] none []

def itemC1 : Element := .mk "item" [] none [enclC1, imgC1]

def chanC1 : Element := .mk "channel" [] none [imgC1]

/-- State after the image download fails early: nothing on disk, one
logged transfer attempt. -/
def stFail1 : DiskState := ⟨[], [("http://h/img.jpg", "/out/images/img.jpg")]⟩

/-- State after the enclosure download fails early. -/
def stFailA : DiskState := ⟨[], [("http://h/a.mp3", "/out/media/a.mp3")]⟩

/-- Fixture for C10: a channel with no channel-level cover whose single
item carries an episode-level `itunes:image`. -/
def titleC10 : Element := .mk "title" [] (some "T") []

def itemC10 : Element := .mk "item" [] none [imgC1]

def chanC10 : Element := .mk "channel" [] none [titleC10, itemC10]

/-- Fixtures for C4: a network that always dies mid-transfer after 5
bytes, and the states/trees of the two successive runs it produces on
`feed7`. -/
def netMid : String → NetResult := fun _ => .failMid 5

def stMid1 : DiskState :=
  ⟨[("/out/media/a.mp3", 5)], [("http://h/a.mp3", "/out/media/a.mp3")]⟩

def enclMid2 : Element :=
  .mk "enclosure" [("url", "media/a.mp3"), ("length", "5")] none []

def treeMid2 : Element :=
  .mk "rss" [] none [.mk "channel" [] none [.mk "item" [] none [enclMid2]]]

/-! ## Helper lemmas: attributes -/

@[simp] theorem tag_mk (t : String) (a : List (String × String)) (x : Option String)
    (cs : List Element) : (Element.mk t a x cs).tag = t := rfl

@[simp] theorem attrib_mk (t : String) (a : List (String × String)) (x : Option String)
    (cs : List Element) : (Element.mk t a x cs).attrib = a := rfl

@[simp] theorem textVal_mk (t : String) (a : List (String × String)) (x : Option String)
    (cs : List Element) : (Element.mk t a x cs).textVal = x := rfl

@[simp] theorem children_mk (t : String) (a : List (String × String)) (x : Option String)
    (cs : List Element) : (Element.mk t a x cs).children = cs := rfl

@[simp] theorem tag_setAttr (e : Element) (k v : String) : (e.setAttr k v).tag = e.tag := rfl

@[simp] theorem textVal_setAttr (e : Element) (k v : String) :
    (e.setAttr k v).textVal = e.textVal := rfl

@[simp] theorem children_setAttr (e : Element) (k v : String) :
    (e.setAttr k v).children = e.children := rfl

@[simp] theorem attrib_setAttr (e : Element) (k v : String) :
    (e.setAttr k v).attrib = setPair k v e.attrib := rfl

@[simp] theorem tag_setText (e : Element) (v : String) : (e.setText v).tag = e.tag := rfl

@[simp] theorem children_setText (e : Element) (v : String) :
    (e.setText v).children = e.children := rfl

@[simp] theorem attrib_setText (e : Element) (v : String) :
    (e.setText v).attrib = e.attrib := rfl

@[simp] theorem textVal_setText (e : Element) (v : String) :
    (e.setText v).textVal = some v := rfl

theorem find?_setPair_same (k v : String) (a : List (String × String)) :
    (setPair k v a).find? (fun q => q.1 == k) = some (k, v) := by
  induction a with
  | nil => simp [setPair, List.find?]
  | cons q rest ih =>
    obtain ⟨k', v'⟩ := q
    by_cases h : k' = k
    · subst h
      simp only [setPair, beq_self_eq_true, if_true]
      exact List.find?_cons_of_pos _ (by simp)
    · simp only [setPair, beq_iff_eq, h, if_false]
      rw [List.find?_cons_of_neg _ (by simp [h])]
      exact ih

theorem find?_setPair_other (k v k' : String) (h : k' ≠ k) (a : List (String × String)) :
    (setPair k v a).find? (fun q => q.1 == k') = a.find? (fun q => q.1 == k') := by
  induction a with
  | nil =>
    simp only [setPair]
    rw [@List.find?_cons_of_neg _ (fun q => q.1 == k') (k, v) []
          (by show ¬(k == k') = true; simp only [beq_iff_eq]; exact fun hh => h hh.symm),
        List.find?_nil]
  | cons q rest ih =>
    obtain ⟨k'', v''⟩ := q
    by_cases hk : k'' = k
    · subst hk
      simp only [setPair, beq_self_eq_true, if_true]
      rw [@List.find?_cons_of_neg _ (fun q => q.1 == k') (k'', v) rest
            (by show ¬(k'' == k') = true; simp only [beq_iff_eq]; exact fun hh => h hh.symm),
          @List.find?_cons_of_neg _ (fun q => q.1 == k') (k'', v'') rest
            (by show ¬(k'' == k') = true; simp only [beq_iff_eq]; exact fun hh => h hh.symm)]
    · simp only [setPair, beq_iff_eq, hk, if_false]
      by_cases hm : k'' = k'
      · rw [@List.find?_cons_of_pos _ (fun q => q.1 == k') (k'', v'') (setPair k v rest)
              (by show (k'' == k') = true; simp [hm]),
            @List.find?_cons_of_pos _ (fun q => q.1 == k') (k'', v'') rest
              (by show (k'' == k') = true; simp [hm])]
      · rw [@List.find?_cons_of_neg _ (fun q => q.1 == k') (k'', v'') (setPair k v rest)
              (by show ¬(k'' == k') = true; simp [hm]),
            @List.find?_cons_of_neg _ (fun q => q.1 == k') (k'', v'') rest
              (by show ¬(k'' == k') = true; simp [hm])]
        exact ih

theorem attrGet_setAttr_same (e : Element) (k v : String) :
    attrGet (e.setAttr k v) k = some v := by
  simp [attrGet, find?_setPair_same]

theorem attrGet_setAttr_other (e : Element) (k v k' : String) (h : k' ≠ k) :
    attrGet (e.setAttr k v) k' = attrGet e k' := by
  simp [attrGet, find?_setPair_other k v k' h]

theorem attrGet_setText (e : Element) (v k : String) :
    attrGet (e.setText v) k = attrGet e k := by
  simp [attrGet]

theorem find?_tag_eq {l : List Element} {t : String} {c : Element}
    (h : l.find? (fun c => c.tag == t) = some c) : c.tag = t := by
  have := List.find?_some h
  simpa [beq_iff_eq] using this

/-! ## Helper lemmas: first-child update -/

theorem listUpdChild_none (t : String) (f : Element → Element) (l : List Element) :
    listUpdChild t f l = none ↔ l.find? (fun c => c.tag == t) = none := by
  induction l with
  | nil => simp [listUpdChild, List.find?]
  | cons c rest ih =>
    cases hm : (c.tag == t)
    · rw [@List.find?_cons_of_neg _ (fun c => c.tag == t) c rest (by simp [hm])]
      simpa [listUpdChild, hm] using ih
    · rw [@List.find?_cons_of_pos _ (fun c => c.tag == t) c rest hm]
      simp [listUpdChild, hm]

theorem listUpdChild_find {t : String} {f : Element → Element}
    (hf : ∀ e, e.tag = t → (f e).tag = t) {l l' : List Element}
    (h : listUpdChild t f l = some l') :
    l'.find? (fun c => c.tag == t) = (l.find? (fun c => c.tag == t)).map f := by
  induction l generalizing l' with
  | nil => simp [listUpdChild] at h
  | cons c rest ih =>
    cases hm : (c.tag == t)
    · simp only [listUpdChild, hm, Bool.false_eq_true, if_false] at h
      cases hr : listUpdChild t f rest with
      | none => rw [hr] at h; simp at h
      | some r' =>
        rw [hr] at h
        simp only [Option.map_some'] at h
        cases h
        rw [@List.find?_cons_of_neg _ (fun c => c.tag == t) c r' (by simp [hm]),
            @List.find?_cons_of_neg _ (fun c => c.tag == t) c rest (by simp [hm])]
        exact ih hr
    · simp only [listUpdChild, hm, if_true] at h
      cases h
      rw [@List.find?_cons_of_pos _ (fun c => c.tag == t) (f c) rest
            (by show ((f c).tag == t) = true
                rw [hf c (by simpa [beq_iff_eq] using hm)]
                simp),
          @List.find?_cons_of_pos _ (fun c => c.tag == t) c rest hm]
      rfl

theorem find?_map_tagpres {g : Element → Element} (hg : ∀ c, (g c).tag = c.tag)
    (t : String) (l : List Element) :
    (l.map g).find? (fun c => c.tag == t) = (l.find? (fun c => c.tag == t)).map g := by
  induction l with
  | nil => simp
  | cons c rest ih =>
    rw [List.map_cons]
    cases hm : (c.tag == t)
    · rw [@List.find?_cons_of_neg _ (fun c => c.tag == t) (g c) (rest.map g)
            (by show ¬((g c).tag == t) = true; rw [hg c]; simp [hm]),
          @List.find?_cons_of_neg _ (fun c => c.tag == t) c rest (by simp [hm])]
      exact ih
    · rw [@List.find?_cons_of_pos _ (fun c => c.tag == t) (g c) (rest.map g)
            (by show ((g c).tag == t) = true; rw [hg c]; exact hm),
          @List.find?_cons_of_pos _ (fun c => c.tag == t) c rest hm]
      rfl

/-! ## Helper lemmas: descendant search and update -/

theorem listUpdDesc_none (t : String) (f : Element → Element) :
    ∀ l : List Element, listUpdDesc t f l = none ↔ listFindDesc t l = none := by
  intro l
  induction l using listUpdDesc.induct t f with
  | case1 => simp [listUpdDesc, listFindDesc]
  | case2 tg a x cs rest htg =>
    simp [listUpdDesc, listFindDesc, htg]
  | case3 tg a x cs rest htg cs' hcs ih =>
    have hfind : ¬ listFindDesc t cs = none := fun hn => by
      rw [← ih] at hn
      rw [hn] at hcs
      cases hcs
    cases hf : listFindDesc t cs with
    | none => exact absurd hf hfind
    | some e => simp [listUpdDesc, listFindDesc, htg, hcs, hf]
  | case4 tg a x cs rest htg hcs rest' hrest ihcs ihrest =>
    have hfcs : listFindDesc t cs = none := ihcs.mp hcs
    have hfrest : ¬ listFindDesc t rest = none := fun hn => by
      rw [← ihrest] at hn
      rw [hn] at hrest
      cases hrest
    cases hf : listFindDesc t rest with
    | none => exact absurd hf hfrest
    | some e => simp [listUpdDesc, listFindDesc, htg, hcs, hrest, hfcs, hf]
  | case5 tg a x cs rest htg hcs hrest ihcs ihrest =>
    simp [listUpdDesc, listFindDesc, htg, hcs, hrest, ihcs.mp hcs, ihrest.mp hrest]

/-- The pointwise relation a descendant update induces on the top-level
list: tags are preserved everywhere, and every element whose tag is not
the searched one keeps its attributes and text (only its child list can
have been rewritten deeper down). -/
def TagAttrR (t : String) (a b : Element) : Prop :=
  b.tag = a.tag ∧ (a.tag ≠ t → b.attrib = a.attrib ∧ b.textVal = a.textVal)

theorem tagAttrR_refl (t : String) : ∀ x : Element, TagAttrR t x x :=
  fun _ => ⟨rfl, fun _ => ⟨rfl, rfl⟩⟩

theorem listUpdDesc_forall₂ {t : String} {f : Element → Element}
    (hf : ∀ e, e.tag = t → (f e).tag = t) :
    ∀ l l', listUpdDesc t f l = some l' → List.Forall₂ (TagAttrR t) l l' := by
  intro l
  induction l using listUpdDesc.induct t f with
  | case1 => intro l' h; simp [listUpdDesc] at h
  | case2 tg a x cs rest htg =>
    intro l' h
    simp only [listUpdDesc, htg, if_true] at h
    cases h
    have htg' : (Element.mk tg a x cs).tag = t := by simpa [beq_iff_eq] using htg
    refine List.Forall₂.cons ⟨by rw [hf _ htg', htg'], fun hne => ?_⟩
      (List.forall₂_same.mpr (fun x _ => tagAttrR_refl t x))
    exact absurd htg' hne
  | case3 tg a x cs rest htg cs' hcs ih =>
    intro l' h
    simp only [listUpdDesc, htg, Bool.false_eq_true, if_false, hcs] at h
    cases h
    exact List.Forall₂.cons ⟨rfl, fun _ => ⟨rfl, rfl⟩⟩
      (List.forall₂_same.mpr (fun x _ => tagAttrR_refl t x))
  | case4 tg a x cs rest htg hcs rest' hrest ihcs ihrest =>
    intro l' h
    simp only [listUpdDesc, htg, Bool.false_eq_true, if_false, hcs, hrest] at h
    cases h
    exact List.Forall₂.cons (tagAttrR_refl t _) (ihrest _ hrest)
  | case5 tg a x cs rest htg hcs hrest ihcs ihrest =>
    intro l' h
    simp [listUpdDesc, htg, hcs, hrest] at h

theorem forall₂_find? {R : Element → Element → Prop}
    (hR : ∀ a b, R a b → b.tag = a.tag) :
    ∀ {l l' : List Element}, List.Forall₂ R l l' → ∀ {s : String} {c : Element},
      l.find? (fun e => e.tag == s) = some c →
      ∃ c', l'.find? (fun e => e.tag == s) = some c' ∧ R c c' := by
  intro l l' h
  induction h with
  | nil => intro s c hc; simp at hc
  | @cons a b l₁ l₂ hab htail ih =>
    intro s c hc
    cases hm : (a.tag == s)
    · rw [@List.find?_cons_of_neg _ (fun e => e.tag == s) a l₁ (by simp [hm])] at hc
      obtain ⟨c', hc', hr⟩ := ih hc
      refine ⟨c', ?_, hr⟩
      rw [@List.find?_cons_of_neg _ (fun e => e.tag == s) b l₂
            (by show ¬(b.tag == s) = true; rw [hR a b hab]; simp [hm])]
      exact hc'
    · rw [@List.find?_cons_of_pos _ (fun e => e.tag == s) a l₁ hm] at hc
      cases hc
      refine ⟨b, ?_, hab⟩
      rw [@List.find?_cons_of_pos _ (fun e => e.tag == s) b l₂
            (by show (b.tag == s) = true; rw [hR a b hab]; exact hm)]

/-! ## Helper lemmas: shapes -/

theorem shapeL_nil : shapeL [] = [] := by
  simp [shapeL]

theorem shapeL_cons (e : Element) (l : List Element) :
    shapeL (e :: l) = shapeE e :: shapeL l := by
  cases e with
  | mk t a x cs => simp [shapeL, shapeE]

theorem tag_shapeE (e : Element) : (shapeE e).tag = e.tag := rfl

theorem shapeE_setAttr (e : Element) (k v : String) :
    shapeE (e.setAttr k v) = shapeE e := rfl

theorem shapeE_setText (e : Element) (v : String) :
    shapeE (e.setText v) = shapeE e := rfl

theorem listUpdDesc_shape {t : String} {f : Element → Element}
    (hf : ∀ e, shapeE (f e) = shapeE e) :
    ∀ l l', listUpdDesc t f l = some l' → shapeL l' = shapeL l := by
  intro l
  induction l using listUpdDesc.induct t f with
  | case1 => intro l' h; simp [listUpdDesc] at h
  | case2 tg a x cs rest htg =>
    intro l' h
    simp only [listUpdDesc, htg, if_true] at h
    cases h
    rw [shapeL_cons, shapeL_cons, hf]
  | case3 tg a x cs rest htg cs' hcs ih =>
    intro l' h
    simp only [listUpdDesc, htg, Bool.false_eq_true, if_false, hcs] at h
    cases h
    show shapeL (Element.mk tg a x cs' :: rest) = shapeL (Element.mk tg a x cs :: rest)
    rw [shapeL_cons, shapeL_cons]
    show Element.mk tg [] none (shapeL cs') :: shapeL rest =
      Element.mk tg [] none (shapeL cs) :: shapeL rest
    rw [ih _ hcs]
  | case4 tg a x cs rest htg hcs rest' hrest ihcs ihrest =>
    intro l' h
    simp only [listUpdDesc, htg, Bool.false_eq_true, if_false, hcs, hrest] at h
    cases h
    rw [shapeL_cons, shapeL_cons, ihrest _ hrest]
  | case5 tg a x cs rest htg hcs hrest ihcs ihrest =>
    intro l' h
    simp [listUpdDesc, htg, hcs, hrest] at h

theorem listUpdChild_shape {t : String} {f : Element → Element}
    (hf : ∀ e, shapeE (f e) = shapeE e) :
    ∀ l l', listUpdChild t f l = some l' → shapeL l' = shapeL l := by
  intro l
  induction l with
  | nil => intro l' h; simp [listUpdChild] at h
  | cons c rest ih =>
    intro l' h
    cases hm : (c.tag == t) with
    | true =>
      simp only [listUpdChild, hm, if_true] at h
      cases h
      rw [shapeL_cons, shapeL_cons, hf]
    | false =>
      simp only [listUpdChild, hm, Bool.false_eq_true, if_false] at h
      cases hr : listUpdChild t f rest with
      | none => rw [hr] at h; simp at h
      | some r' =>
        rw [hr] at h
        simp only [Option.map_some'] at h
        cases h
        rw [shapeL_cons, shapeL_cons, ih _ hr]

theorem listUpdImageUrl_shape {f : Element → Element}
    (hf : ∀ e, shapeE (f e) = shapeE e) :
    ∀ l l', listUpdImageUrl f l = some l' → shapeL l' = shapeL l := by
  intro l
  induction l with
  | nil => intro l' h; simp [listUpdImageUrl] at h
  | cons c rest ih =>
    intro l' h
    cases c with
    | mk tg a x cs =>
      by_cases htg : tg = "image"
      · subst htg
        simp only [listUpdImageUrl, beq_self_eq_true, if_true] at h
        cases hu : listUpdChild "url" f cs with
        | some cs' =>
          rw [hu] at h
          cases h
          show shapeL (Element.mk "image" a x cs' :: rest) =
            shapeL (Element.mk "image" a x cs :: rest)
          rw [shapeL_cons, shapeL_cons]
          show Element.mk "image" [] none (shapeL cs') :: shapeL rest =
            Element.mk "image" [] none (shapeL cs) :: shapeL rest
          rw [listUpdChild_shape hf _ _ hu]
        | none =>
          rw [hu] at h
          cases hr : listUpdImageUrl f rest with
          | none => rw [hr] at h; simp at h
          | some r' =>
            rw [hr] at h
            simp only [Option.map_some'] at h
            cases h
            rw [shapeL_cons, shapeL_cons, ih _ hr]
      · simp only [listUpdImageUrl, beq_iff_eq, htg, if_false] at h
        cases hr : listUpdImageUrl f rest with
        | none => rw [hr] at h; simp at h
        | some r' =>
          rw [hr] at h
          simp only [Option.map_some'] at h
          cases h
          rw [shapeL_cons, shapeL_cons, ih _ hr]

theorem shapeL_map {g : Element → Element} (hg : ∀ c, shapeE (g c) = shapeE c) :
    ∀ l : List Element, shapeL (l.map g) = shapeL l := by
  intro l
  induction l with
  | nil => rfl
  | cons c rest ih =>
    rw [List.map_cons, shapeL_cons, shapeL_cons, hg, ih]

theorem shape_filter_items :
    ∀ l₁ l₂ : List Element, shapeL l₁ = shapeL l₂ →
      (l₁.filter (fun c => c.tag == "item")).map shapeE =
      (l₂.filter (fun c => c.tag == "item")).map shapeE := by
  intro l₁
  induction l₁ with
  | nil =>
    intro l₂ h
    cases l₂ with
    | nil => rfl
    | cons c r =>
      rw [shapeL_nil, shapeL_cons] at h
      exact List.noConfusion h
  | cons c₁ r₁ ih =>
    intro l₂ h
    cases l₂ with
    | nil =>
      rw [shapeL_nil, shapeL_cons] at h
      exact List.noConfusion h
    | cons c₂ r₂ =>
      rw [shapeL_cons, shapeL_cons] at h
      injection h with h1 h2
      have htag : c₁.tag = c₂.tag := by
        have := congrArg Element.tag h1
        simpa [tag_shapeE] using this
      rw [List.filter_cons, List.filter_cons, htag]
      cases hm : (c₂.tag == "item")
      · simp only [Bool.false_eq_true, if_false]
        exact ih r₂ h2
      · simp only [if_true, List.map_cons]
        rw [show shapeE c₁ = shapeE c₂ from h1, ih r₂ h2]

/-! ## Helper lemmas: filename derivation -/

theorem contains_claimBadChars (c : Char) :
    claimBadChars.contains c = isForbiddenChar c := by
  simp only [claimBadChars, isForbiddenChar, List.contains_cons, List.contains_nil,
    Bool.or_false, Bool.or_assoc]

theorem lastSegment_append (l : List Char) (c : Char) :
    lastSegment (l ++ [c]) = if c == '/' then [] else lastSegment l ++ [c] := by
  unfold lastSegment
  rw [List.foldl_append]
  rfl

theorem lastSegment_eq_basename (l : List Char) :
    lastSegment l = (l.reverse.takeWhile (fun c => c != '/')).reverse := by
  induction l using List.reverseRecOn with
  | nil => rfl
  | append_singleton l c ih =>
    rw [lastSegment_append, List.reverse_append]
    simp only [List.reverse_cons, List.reverse_nil, List.nil_append, List.singleton_append,
      List.takeWhile_cons]
    by_cases hc : c = '/'
    · subst hc
      simp
    · have h1 : (c == '/') = false := by simp [hc]
      have h2 : (c != '/') = true := by simp [hc]
      simp only [h1, h2, Bool.false_eq_true, if_false, if_true, List.reverse_cons, ih]

/-! ## Helper lemmas: filesystem and downloader -/

theorem fsLe_refl (fs : List (String × Nat)) : fsLe fs fs :=
  fun _ _ h => h

theorem fsLe_trans {f g h : List (String × Nat)} (h1 : fsLe f g) (h2 : fsLe g h) :
    fsLe f h :=
  fun p n hh => h2 p n (h1 p n hh)

theorem fsLookup_append {fs : List (String × Nat)} (l : List (String × Nat))
    {p : String} {n : Nat} (h : fsLookup fs p = some n) :
    fsLookup (fs ++ l) p = some n := by
  unfold fsLookup at h ⊢
  cases hf : fs.find? (fun q => q.1 == p) with
  | none => rw [hf] at h; simp at h
  | some q =>
    rw [hf] at h
    rw [List.find?_append, hf]
    exact h

theorem fsLe_append (fs l : List (String × Nat)) : fsLe fs (fs ++ l) :=
  fun _ _ h => fsLookup_append l h

theorem fsLookup_append_self (fs : List (String × Nat)) (p : String) (n : Nat)
    (h : fsLookup fs p = none) : fsLookup (fs ++ [(p, n)]) p = some n := by
  unfold fsLookup at h ⊢
  cases hf : fs.find? (fun q => q.1 == p) with
  | none =>
    rw [List.find?_append, hf]
    simp [List.find?]
  | some q => rw [hf] at h; simp at h

theorem fsLookup_append_exists (fs : List (String × Nat)) (p : String) (n : Nat) :
    ∃ m, fsLookup (fs ++ [(p, n)]) p = some m := by
  unfold fsLookup
  rw [List.find?_append]
  cases hf : fs.find? (fun q => q.1 == p) with
  | none => exact ⟨n, by simp [List.find?]⟩
  | some q => exact ⟨q.2, by simp⟩

theorem download_file_fsLe {net : String → NetResult} {st : DiskState}
    {ou : Option String} {folder : String} {r : Option String} {st' : DiskState}
    (h : download_file net st ou folder = (r, st')) : fsLe st.fs st'.fs := by
  cases ou with
  | none =>
    simp only [download_file] at h
    cases h
    exact fsLe_refl _
  | some u =>
    simp only [download_file] at h
    generalize hd : os_join folder (derived_filename u) = d at h
    split at h
    · cases h; exact fsLe_refl _
    · split at h
      · cases h; exact fsLe_refl _
      · split at h
        · cases h; exact fsLe_append _ _
        · cases h; exact fsLe_refl _
        · cases h; exact fsLe_append _ _

theorem download_file_success_lookup {net : String → NetResult} {st : DiskState}
    {u : String} {folder : String} {p : String} {st' : DiskState}
    (h : download_file net st (some u) folder = (some p, st')) :
    ∃ n, fsLookup st'.fs p = some n := by
  simp only [download_file] at h
  generalize hd : os_join folder (derived_filename u) = d at h
  split at h
  · cases h
  · split at h
    · rename_i hne hhas
      cases h
      simp only [fsHas, Option.isSome_iff_exists] at hhas
      exact hhas
    · split at h
      · cases h
        exact fsLookup_append_exists _ _ _
      · cases h
      · cases h

theorem download_file_dest {net : String → NetResult} {st : DiskState}
    {u : String} {folder : String} {p : String} {st' : DiskState}
    (h : download_file net st (some u) folder = (some p, st')) :
    p = os_join folder (derived_filename u) := by
  simp only [download_file] at h
  generalize hd : os_join folder (derived_filename u) = d at h ⊢
  split at h
  · cases h
  · split at h
    · cases h; rfl
    · split at h
      · cases h; rfl
      · cases h
      · cases h

theorem download_file_skip {net : String → NetResult} {st : DiskState}
    {u : String} {folder : String} (hne : u.data.isEmpty = false)
    (hhas : fsHas st.fs (os_join folder (derived_filename u)) = true) :
    download_file net st (some u) folder =
      (some (os_join folder (derived_filename u)), st) := by
  simp only [download_file, hne, Bool.false_eq_true, if_false, hhas, if_true]

/-! ## Soundness of the fuel-bounded evaluators -/

theorem lfdF_sound : ∀ {fuel : Nat} {t : String} {l : List Element} {r : Option Element},
    lfdF fuel t l = some r → listFindDesc t l = r := by
  intro fuel
  induction fuel with
  | zero => intro t l r h; simp [lfdF] at h
  | succ fuel ih =>
    intro t l r h
    cases l with
    | nil =>
      simp only [lfdF] at h
      cases h
      simp [listFindDesc]
    | cons c rest =>
      cases c with
      | mk tg a x cs =>
        simp only [lfdF] at h
        by_cases htg : (tg == t) = true
        · rw [if_pos htg] at h
          cases h
          simp [listFindDesc, htg]
        · rw [if_neg htg] at h
          cases hcs : lfdF fuel t cs with
          | none => simp only [hcs] at h; cases h
          | some o =>
            simp only [hcs] at h
            cases o with
            | some e =>
              cases h
              simp [listFindDesc, htg, ih hcs]
            | none =>
              simp [listFindDesc, htg, ih hcs, ih h]

theorem ludF_sound : ∀ {fuel : Nat} {t : String} {f : Element → Element}
    {l : List Element} {r : Option (List Element)},
    ludF fuel t f l = some r → listUpdDesc t f l = r := by
  intro fuel
  induction fuel with
  | zero => intro t f l r h; simp [ludF] at h
  | succ fuel ih =>
    intro t f l r h
    cases l with
    | nil =>
      simp only [ludF] at h
      cases h
      simp [listUpdDesc]
    | cons c rest =>
      cases c with
      | mk tg a x cs =>
        simp only [ludF] at h
        by_cases htg : (tg == t) = true
        · rw [if_pos htg] at h
          cases h
          simp [listUpdDesc, htg]
        · rw [if_neg htg] at h
          cases hcs : ludF fuel t f cs with
          | none => simp only [hcs] at h; cases h
          | some o =>
            simp only [hcs] at h
            cases o with
            | some cs' =>
              cases h
              simp [listUpdDesc, htg, ih hcs]
            | none =>
              cases hrest : ludF fuel t f rest with
              | none => simp only [hrest] at h; cases h
              | some o2 =>
                simp only [hrest] at h
                cases o2 with
                | some rest' =>
                  cases h
                  simp [listUpdDesc, htg, ih hcs, ih hrest]
                | none =>
                  cases h
                  simp [listUpdDesc, htg, ih hcs, ih hrest]

theorem updFirstDescF_sound {fuel : Nat} {e : Element} {t : String}
    {f : Element → Element} {e' : Element}
    (h : updFirstDescF fuel e t f = some e') : updFirstDesc e t f = e' := by
  unfold updFirstDescF at h
  cases hu : ludF fuel t f e.children with
  | none => rw [hu] at h; cases h
  | some o =>
    simp only [hu] at h
    cases o with
    | some cs' =>
      cases h
      simp [updFirstDesc, ludF_sound hu]
    | none =>
      cases h
      simp [updFirstDesc, ludF_sound hu]

theorem coverStepF_sound {fuel : Nat} {net : String → NetResult} {cfg : Config}
    {st : DiskState} {ch : Element} {r : DiskState × Element}
    (h : coverStepF fuel net cfg st ch = some r) : coverStep net cfg st ch = r := by
  unfold coverStepF at h
  cases hf : lfdF fuel itunesImageTag ch.children with
  | none => rw [hf] at h; cases h
  | some o =>
    simp only [hf] at h
    have hfind := lfdF_sound hf
    cases o with
    | none =>
      cases h
      simp [coverStep, hfind]
    | some img =>
      cases hdl : (download_file net st (attrGet img "href") (images_folder cfg)).1 with
      | none =>
        simp only [hdl] at h
        cases h
        simp [coverStep, hfind, hdl]
      | some p =>
        simp only [hdl] at h
        cases hupd : updFirstDescF fuel ch itunesImageTag
            (fun e => e.setAttr "href" (os_relpath cfg.cwd p cfg.output_folder)) with
        | none => rw [hupd] at h; cases h
        | some ch1 =>
          simp only [hupd] at h
          cases h
          simp [coverStep, hfind, hdl, updFirstDescF_sound hupd]

theorem imageStepF_sound {fuel : Nat} {net : String → NetResult} {cfg : Config}
    {st : DiskState} {item : Element} {r : DiskState × Element}
    (h : imageStepF fuel net cfg st item = some r) : imageStep net cfg st item = r := by
  unfold imageStepF at h
  cases hf : lfdF fuel itunesImageTag item.children with
  | none => rw [hf] at h; cases h
  | some o =>
    simp only [hf] at h
    have hfind := lfdF_sound hf
    cases o with
    | none =>
      cases h
      simp [imageStep, hfind]
    | some img =>
      cases hdl : (download_file net st (attrGet img "href") (images_folder cfg)).1 with
      | none =>
        simp only [hdl] at h
        cases h
        simp [imageStep, hfind, hdl]
      | some p =>
        simp only [hdl] at h
        cases hupd : updFirstDescF fuel item itunesImageTag
            (fun e => e.setAttr "href" (os_relpath cfg.cwd p cfg.output_folder)) with
        | none => rw [hupd] at h; cases h
        | some item' =>
          simp only [hupd] at h
          cases h
          simp [imageStep, hfind, hdl, updFirstDescF_sound hupd]

theorem processItemF_sound {fuel : Nat} {net : String → NetResult} {cfg : Config}
    {st : DiskState} {item : Element} {r : Except String (DiskState × Element)}
    (h : processItemF fuel net cfg st item = some r) :
    processItem net cfg st item = r := by
  unfold processItemF at h
  cases henc : findChild item "enclosure" with
  | none =>
    simp only [henc] at h
    cases hi : imageStepF fuel net cfg st item with
    | none => rw [hi] at h; cases h
    | some ri =>
      rw [hi] at h
      simp only [Option.map_some'] at h
      cases h
      simp [processItem, henc, imageStepF_sound hi]
  | some enc =>
    simp only [henc] at h
    cases hurl : attrGet enc "url" with
    | none =>
      simp only [hurl] at h
      cases h
      simp [processItem, henc, hurl]
    | some audio_url =>
      simp only [hurl] at h
      cases hdl : (download_file net st (some audio_url) (media_folder cfg)).1 with
      | none =>
        simp only [hdl] at h
        cases hi : imageStepF fuel net cfg
            (download_file net st (some audio_url) (media_folder cfg)).2 item with
        | none => rw [hi] at h; cases h
        | some ri =>
          rw [hi] at h
          simp only [Option.map_some'] at h
          cases h
          simp [processItem, henc, hurl, hdl, imageStepF_sound hi]
      | some p =>
        simp only [hdl] at h
        cases hi : imageStepF fuel net cfg
            (download_file net st (some audio_url) (media_folder cfg)).2
            (updFirstChild item "enclosure" (fun e =>
              (e.setAttr "url" (os_relpath cfg.cwd p cfg.output_folder)).setAttr "length"
                (Nat.repr ((fsLookup (download_file net st (some audio_url)
                  (media_folder cfg)).2.fs p).getD 0)))) with
        | none => rw [hi] at h; cases h
        | some ri =>
          rw [hi] at h
          simp only [Option.map_some'] at h
          cases h
          simp [processItem, henc, hurl, hdl, imageStepF_sound hi]

theorem processChildrenF_sound {fuel : Nat} {net : String → NetResult} {cfg : Config} :
    ∀ {st : DiskState} {l : List Element} {r : Except String (DiskState × List Element)},
    processChildrenF fuel net cfg st l = some r → processChildren net cfg st l = r := by
  intro st l
  induction l generalizing st with
  | nil =>
    intro r h
    simp only [processChildrenF] at h
    cases h
    rfl
  | cons c rest ih =>
    intro r h
    simp only [processChildrenF] at h
    by_cases htg : (c.tag == "item") = true
    · rw [if_pos htg] at h
      cases hpi : processItemF fuel net cfg st c with
      | none => rw [hpi] at h; cases h
      | some ri =>
        simp only [hpi] at h
        cases ri with
        | error e =>
          cases h
          simp [processChildren, htg, processItemF_sound hpi]
        | ok pr =>
          obtain ⟨st1, c1⟩ := pr
          cases hpc : processChildrenF fuel net cfg st1 rest with
          | none => simp only [hpc] at h; cases h
          | some rr =>
            simp only [hpc] at h
            cases rr with
            | error e =>
              cases h
              simp [processChildren, htg, processItemF_sound hpi, ih hpc]
            | ok pr2 =>
              obtain ⟨st2, rest2⟩ := pr2
              cases h
              simp [processChildren, htg, processItemF_sound hpi, ih hpc]
    · rw [if_neg htg] at h
      cases hpc : processChildrenF fuel net cfg st rest with
      | none => rw [hpc] at h; cases h
      | some rr =>
        simp only [hpc] at h
        cases rr with
        | error e =>
          cases h
          simp [processChildren, htg, ih hpc]
        | ok pr2 =>
          obtain ⟨st2, rest2⟩ := pr2
          cases h
          simp [processChildren, htg, ih hpc]

theorem processTreeF_sound {fuel : Nat} {net : String → NetResult} {cfg : Config}
    {now : UtcTime} {st : DiskState} {root : Element}
    {r : Except String (DiskState × Element)}
    (h : processTreeF fuel net cfg now st root = some r) :
    process_feed_tree net cfg now st root = r := by
  unfold processTreeF at h
  cases hch : findChild root "channel" with
  | none =>
    simp only [hch] at h
    cases h
    simp [process_feed_tree, hch]
  | some ch =>
    simp only [hch] at h
    cases hcov : coverStepF fuel net cfg st ch with
    | none => rw [hcov] at h; cases h
    | some cov =>
      simp only [hcov] at h
      cases hpc : processChildrenF fuel net cfg cov.1 cov.2.children with
      | none => rw [hpc] at h; cases h
      | some rr =>
        simp only [hpc] at h
        cases rr with
        | error e =>
          cases h
          simp [process_feed_tree, hch, coverStepF_sound hcov, processChildrenF_sound hpc]
        | ok pr =>
          obtain ⟨st2, cs2⟩ := pr
          cases h
          simp [process_feed_tree, hch, coverStepF_sound hcov, processChildrenF_sound hpc]

theorem processRunF_sound {fuel : Nat} {net : String → NetResult} {cfg : Config}
    {now : UtcTime} {st : DiskState} {fetch : FetchResult}
    {parse : String → Option Element} {r : Except String (DiskState × Element)}
    (h : processRunF fuel net cfg now st fetch parse = some r) :
    process_feed_run net cfg now st fetch parse = r := by
  cases fetch with
  | netError m =>
    simp only [processRunF] at h
    cases h
    rfl
  | response s body =>
    simp only [processRunF] at h
    simp only [process_feed_run]
    cases hp : parse body with
    | none =>
      simp only [hp] at h ⊢
      cases h
      rfl
    | some root =>
      simp only [hp] at h ⊢
      exact processTreeF_sound h
/-! ## Helper lemmas: tags of the pipeline stages -/

theorem updFirstDesc_tag (e : Element) (t : String) (f : Element → Element) :
    (updFirstDesc e t f).tag = e.tag := by
  unfold updFirstDesc
  cases listUpdDesc t f e.children with
  | some cs => rfl
  | none => rfl

theorem coverStep_tag (net : String → NetResult) (cfg : Config) (st : DiskState)
    (ch : Element) : (coverStep net cfg st ch).2.tag = ch.tag := by
  unfold coverStep
  cases hf : listFindDesc itunesImageTag ch.children with
  | none => rfl
  | some img =>
    cases hdl : (download_file net st (attrGet img "href") (images_folder cfg)).1 with
    | none => simp [hdl]
    | some p =>
      have h1 := updFirstDesc_tag ch itunesImageTag
        (fun e => e.setAttr "href" (os_relpath cfg.cwd p cfg.output_folder))
      cases hui : listUpdImageUrl
          (fun e => e.setText (os_relpath cfg.cwd p cfg.output_folder))
          (updFirstDesc ch itunesImageTag
            (fun e => e.setAttr "href" (os_relpath cfg.cwd p cfg.output_folder))).children with
      | some cs => simp [hdl, hui, h1]
      | none => simp [hdl, hui, h1]

theorem update_meta_tag (now : UtcTime) (ch : Element) :
    (update_feed_metadata now ch).tag = ch.tag := by
  unfold update_feed_metadata
  cases h : listUpdChild "lastBuildDate"
      (fun e => e.setText (formatLastBuild now)) ch.children with
  | some cs => simp [h]
  | none => simp [h]

/-! ## Helper lemmas: metadata update -/

theorem links_map_property (l : List Element) :
    ∀ e ∈ l.map (fun c =>
        if c.tag == atomLinkTag ∧ attrGet c "rel" = some "self" then
          c.setAttr "href" "feed.xml" else c),
      e.tag = atomLinkTag → attrGet e "rel" = some "self" →
      attrGet e "href" = some "feed.xml" := by
  intro e he htag hrel
  obtain ⟨c, hc, rfl⟩ := List.mem_map.mp he
  by_cases hcond : ((c.tag == atomLinkTag) = true) ∧ attrGet c "rel" = some "self"
  · rw [if_pos hcond]
    exact attrGet_setAttr_same c "href" "feed.xml"
  · rw [if_neg hcond] at htag hrel ⊢
    refine absurd ?_ hcond
    exact ⟨by simp [beq_iff_eq, htag], hrel⟩

theorem linkFix_tag (c : Element) :
    (if c.tag == atomLinkTag ∧ attrGet c "rel" = some "self" then
        c.setAttr "href" "feed.xml" else c).tag = c.tag := by
  split
  · exact tag_setAttr c _ _
  · rfl

theorem update_meta_links (now : UtcTime) (ch : Element) :
    ∀ e ∈ (update_feed_metadata now ch).children,
      e.tag = atomLinkTag → attrGet e "rel" = some "self" →
      attrGet e "href" = some "feed.xml" := by
  intro e he
  simp only [update_feed_metadata, children_mk] at he
  exact links_map_property _ e he

theorem update_meta_lastBuild (now : UtcTime) (ch : Element) :
    ∀ lb, findChild (update_feed_metadata now ch) "lastBuildDate" = some lb →
      lb.textVal = some (formatLastBuild now) := by
  intro lb hlb
  simp only [update_feed_metadata, findChild, children_mk] at hlb
  rw [find?_map_tagpres linkFix_tag] at hlb
  revert hlb
  cases hu : listUpdChild "lastBuildDate"
      (fun e => e.setText (formatLastBuild now)) ch.children with
  | none =>
    intro hlb
    have hlb2 : (ch.children.find? (fun c => c.tag == "lastBuildDate")).map
        (fun c => if c.tag == atomLinkTag ∧ attrGet c "rel" = some "self" then
          c.setAttr "href" "feed.xml" else c) = some lb := hlb
    rw [listUpdChild_none] at hu
    rw [hu] at hlb2
    cases hlb2
  | some cs =>
    intro hlb
    have hlb2 : (cs.find? (fun c => c.tag == "lastBuildDate")).map
        (fun c => if c.tag == atomLinkTag ∧ attrGet c "rel" = some "self" then
          c.setAttr "href" "feed.xml" else c) = some lb := hlb
    rw [listUpdChild_find (fun e he => by rw [tag_setText, he]) hu] at hlb2
    cases hc0 : ch.children.find? (fun c => c.tag == "lastBuildDate") with
    | none => rw [hc0] at hlb2; cases hlb2
    | some c0 =>
      rw [hc0] at hlb2
      simp only [Option.map_some'] at hlb2
      have hc0tag : c0.tag = "lastBuildDate" := find?_tag_eq hc0
      have hcond : ¬ (((c0.setText (formatLastBuild now)).tag == atomLinkTag) = true ∧
          attrGet (c0.setText (formatLastBuild now)) "rel" = some "self") := by
        intro hcc
        have h1 := hcc.1
        rw [tag_setText, hc0tag] at h1
        have : ("lastBuildDate" : String) = atomLinkTag := by simpa [beq_iff_eq] using h1
        exact absurd this (by decide)
      rw [if_neg hcond] at hlb2
      cases hlb2
      exact textVal_setText c0 (formatLastBuild now)

theorem replaceChannel_find {root ch' : Element}
    (hch : (findChild root "channel").isSome = true)
    (ht : ch'.tag = "channel") :
    findChild (replaceChannel root ch') "channel" = some ch' := by
  unfold replaceChannel
  cases hu : listUpdChild "channel" (fun _ => ch') root.children with
  | none =>
    rw [listUpdChild_none] at hu
    unfold findChild at hch
    rw [hu] at hch
    cases hch
  | some cs =>
    unfold findChild
    simp only [children_mk]
    rw [listUpdChild_find (fun _ _ => ht) hu]
    unfold findChild at hch
    cases hc : root.children.find? (fun c => c.tag == "channel") with
    | none => rw [hc] at hch; cases hch
    | some c0 => simp [hc]

/-! ## Claims C5 and C9: filename derivation -/

/-- C5 (corrected): the code derives the destination filename by
percent-decoding the WHOLE URL path first and only then taking the last
segment, then removing exactly the characters of the class, trimming
surrounding whitespace and replacing each remaining space with an
underscore; the claim's order — take the segment first, then decode —
is refuted by `claim_C5_counterexample`. This theorem proves the
amended order equal to the code's derivation for every non-empty URL. -/
theorem claim_C5 (url : String) (h : url ≠ "") :
    amended_filename_order url = derived_filename url := by
  have hpred : (fun c => !claimBadChars.contains c) = (fun c => !isForbiddenChar c) := by
    funext c
    rw [contains_claimBadChars]
  simp only [amended_filename_order, derived_filename, sanitize_filename, os_basename,
    lastSegment_eq_basename, hpred]

/-- Witness for C5 at a concrete non-empty URL. -/
theorem claim_C5_witness :
    ("http://h/e%20f.mp3" : String) ≠ "" ∧
    amended_filename_order "http://h/e%20f.mp3" = derived_filename "http://h/e%20f.mp3" :=
  ⟨by decide, claim_C5 "http://h/e%20f.mp3" (by decide)⟩

/-- C5 counterexample: for `http://h/b%2Fc d.mp3` the claim's order
(segment, then decode) yields `bc_d.mp3`, while the code (decode, then
segment) yields `c_d.mp3`. -/
theorem claim_C5_counterexample :
    claim_filename_order "http://h/b%2Fc d.mp3" = "bc_d.mp3" ∧
    derived_filename "http://h/b%2Fc d.mp3" = "c_d.mp3" ∧
    claim_filename_order "http://h/b%2Fc d.mp3" ≠
      derived_filename "http://h/b%2Fc d.mp3" :=
  ⟨by decide, by decide, by decide⟩

/-- C9 (corrected): for the URL whose decoded path is
`/My Episode #5!.mp3`, the characters `#` and `!` are NOT in the strip
set, so the file written to disk is named `My_Episode_#5!.mp3` (spaces
become underscores, nothing else removed), not `My_Episode_5.mp3`. -/
theorem claim_C9 :
    derived_filename "http://host/My%20Episode%20%235!.mp3" = "My_Episode_#5!.mp3" ∧
    (download_file netOk3 stEmpty (some "http://host/My%20Episode%20%235!.mp3")
        "media").2.fs = [("media/My_Episode_#5!.mp3", 3)] :=
  ⟨by decide, by decide⟩

/-- C9 counterexample: the claimed filename `My_Episode_5.mp3` is never
created; the file actually written is `My_Episode_#5!.mp3`. -/
theorem claim_C9_counterexample :
    fsHas (download_file netOk3 stEmpty (some "http://host/My%20Episode%20%235!.mp3")
        "media").2.fs "media/My_Episode_5.mp3" = false ∧
    fsHas (download_file netOk3 stEmpty (some "http://host/My%20Episode%20%235!.mp3")
        "media").2.fs "media/My_Episode_#5!.mp3" = true :=
  ⟨by decide, by decide⟩

/-! ## Claim C7: feed fetch errors -/

/-- C7 (corrected): a network exception while fetching the feed aborts
the run before anything is parsed or downloaded, and a body that is not
well-formed XML aborts it too — but the HTTP status code is never
inspected: the run behaves identically for any two status codes, so a
non-success response whose body parses is processed in full
(see `claim_C7_counterexample`). -/
theorem claim_C7 :
    (∀ net cfg now st m parse,
      process_feed_run net cfg now st (.netError m) parse = .error m) ∧
    (∀ net cfg now st s body parse, parse body = none →
      process_feed_run net cfg now st (.response s body) parse =
        .error "ParseError: not well-formed XML") ∧
    (∀ net cfg now st s s' body parse,
      process_feed_run net cfg now st (.response s body) parse =
      process_feed_run net cfg now st (.response s' body) parse) := by
  refine ⟨fun _ _ _ _ _ _ => rfl, ?_, ?_⟩
  · intro net cfg now st s body parse hp
    simp [process_feed_run, hp]
  · intro net cfg now st s s' body parse
    rfl

/-- Witness for C7 at concrete inputs. -/
theorem claim_C7_witness :
    process_feed_run netOk3 cfgX nowX stEmpty (.netError "boom") parse7 = .error "boom" ∧
    process_feed_run netOk3 cfgX nowX stEmpty (.response 500 "junk")
      (fun _ => (none : Option Element)) = .error "ParseError: not well-formed XML" :=
  ⟨claim_C7.1 netOk3 cfgX nowX stEmpty "boom" parse7,
   claim_C7.2.1 netOk3 cfgX nowX stEmpty 500 "junk" (fun _ => none) rfl⟩

/-- C7 counterexample: a 404 response whose body happens to be
well-formed XML is processed in full — the run succeeds and transfers a
file — whereas the claim says any non-success status aborts the run
before parsing or downloading. -/
theorem claim_C7_counterexample :
    process_feed_run netOk3 cfgX nowX stEmpty (.response 404 "feedbody") parse7 =
      .ok (st7out, tree7out) ∧
    st7out.log ≠ [] :=
  ⟨processRunF_sound (show processRunF 20 netOk3 cfgX nowX stEmpty
      (.response 404 "feedbody") parse7 = some (.ok (st7out, tree7out)) from rfl),
   by decide⟩

/-! ## Claim C8: the plain image is not an independent lookup -/

/-- C8 (corrected): the plain `image`/`url` reference is NOT found and
rewritten independently — when the channel has no `itunes:image`
descendant anywhere, the cover step leaves the channel (including any
plain image reference) completely unchanged and downloads nothing. The
plain image text is only rewritten as a side effect of a successful
`itunes:image` download, to that same local path. -/
theorem claim_C8 (net : String → NetResult) (cfg : Config) (st : DiskState)
    (ch : Element) (h : listFindDesc itunesImageTag ch.children = none) :
    coverStep net cfg st ch = (st, ch) := by
  unfold coverStep
  rw [h]

/-- Witness for C8: a channel defining its cover only in plain form. -/
theorem claim_C8_witness :
    listFindDesc itunesImageTag chan8.children = none ∧
    coverStep netOk3 cfgX stEmpty chan8 = (stEmpty, chan8) :=
  ⟨lfdF_sound (show lfdF 20 itunesImageTag chan8.children = some none from rfl),
   claim_C8 netOk3 cfgX stEmpty chan8
     (lfdF_sound (show lfdF 20 itunesImageTag chan8.children = some none from rfl))⟩

/-- C8 counterexample: a feed defining the cover only in plain-image
form goes through the whole run unchanged — the plain reference still
holds the remote URL and the transfer log is empty — though the claim
says the reference is found and rewritten. -/
theorem claim_C8_counterexample :
    process_feed_tree netOk3 cfgX nowX stEmpty root8 = .ok (stEmpty, root8) ∧
    imageUrlText root8 = some "http://h/c.jpg" ∧
    stEmpty.log = [] :=
  ⟨processTreeF_sound (show processTreeF 20 netOk3 cfgX nowX stEmpty root8 =
      some (.ok (stEmpty, root8)) from rfl),
   by decide, rfl⟩

/-! ## Claim C6: metadata update -/

/-- C6 (corrected): after every run — whatever the download outcomes —
every atom-namespaced `link` child of the output channel with
`rel="self"` has `href` equal to the literal `feed.xml`, and IF the
output channel has a `lastBuildDate` child then its text is the current
UTC time formatted `Day, DD Mon YYYY HH:MM:SS +0000`. A feed with no
`lastBuildDate` element gets no timestamp at all
(`claim_C6_counterexample`), so the claim's unconditional "the
timestamp is set" holds only for channels that carry the element. -/
theorem claim_C6 (net : String → NetResult) (cfg : Config) (now : UtcTime)
    (st : DiskState) (root : Element) (st' : DiskState) (t' : Element)
    (h : process_feed_tree net cfg now st root = .ok (st', t')) :
    ∃ ch', findChild t' "channel" = some ch' ∧
      (∀ e ∈ ch'.children, e.tag = atomLinkTag → attrGet e "rel" = some "self" →
        attrGet e "href" = some "feed.xml") ∧
      (∀ lb, findChild ch' "lastBuildDate" = some lb →
        lb.textVal = some (formatLastBuild now)) := by
  cases hch : findChild root "channel" with
  | none => simp [process_feed_tree, hch] at h
  | some ch =>
    simp only [process_feed_tree, hch] at h
    cases hpc : processChildren net cfg (coverStep net cfg st ch).1
        (coverStep net cfg st ch).2.children with
    | error e => rw [hpc] at h; cases h
    | ok r =>
      obtain ⟨st2, cs2⟩ := r
      rw [hpc] at h
      simp only at h
      cases h
      refine ⟨update_feed_metadata now
        (Element.mk (coverStep net cfg st ch).2.tag (coverStep net cfg st ch).2.attrib
          (coverStep net cfg st ch).2.textVal cs2), ?_, ?_, ?_⟩
      · apply replaceChannel_find
        · rw [hch]; rfl
        · rw [update_meta_tag, tag_mk, coverStep_tag]
          exact find?_tag_eq hch
      · exact update_meta_links now _
      · exact update_meta_lastBuild now _

/-- Witness for C6 on a concrete feed carrying both metadata fields. -/
theorem claim_C6_witness :
    process_feed_tree netOk3 cfgX nowX stEmpty root6w = .ok (stEmpty, tree6wOut) ∧
    (∃ ch', findChild tree6wOut "channel" = some ch' ∧
      (∀ e ∈ ch'.children, e.tag = atomLinkTag → attrGet e "rel" = some "self" →
        attrGet e "href" = some "feed.xml") ∧
      (∀ lb, findChild ch' "lastBuildDate" = some lb →
        lb.textVal = some (formatLastBuild nowX))) :=
  ⟨processTreeF_sound (show processTreeF 20 netOk3 cfgX nowX stEmpty root6w =
      some (.ok (stEmpty, tree6wOut)) from rfl),
   claim_C6 netOk3 cfgX nowX stEmpty root6w stEmpty tree6wOut
     (processTreeF_sound (show processTreeF 20 netOk3 cfgX nowX stEmpty root6w =
        some (.ok (stEmpty, tree6wOut)) from rfl))⟩

/-- C6 counterexample: a feed whose channel has no `lastBuildDate`
element completes the run with still no `lastBuildDate` element — no
timestamp is set anywhere, contradicting the claim's "for every input
feed the channel's last-build timestamp is set to the current UTC
time". -/
theorem claim_C6_counterexample :
    process_feed_tree netOk3 cfgX nowX stEmpty root6 = .ok (stEmpty, tree6out) ∧
    findChild tree6out "channel" = some chan6out ∧
    findChild chan6out "lastBuildDate" = none :=
  ⟨processTreeF_sound (show processTreeF 20 netOk3 cfgX nowX stEmpty root6 =
      some (.ok (stEmpty, tree6out)) from rfl),
   rfl, rfl⟩

/-! ## Helper lemmas: effect of the item steps on the enclosure -/

theorem attrGet_congr {e e' : Element} (h : e'.attrib = e.attrib) (k : String) :
    attrGet e' k = attrGet e k := by
  unfold attrGet
  rw [h]

theorem imageStep_enclosure {net : String → NetResult} {cfg : Config} {st : DiskState}
    {item enc : Element} (henc : findChild item "enclosure" = some enc) :
    ∃ enc', findChild (imageStep net cfg st item).2 "enclosure" = some enc' ∧
      enc'.attrib = enc.attrib := by
  unfold imageStep
  cases hf : listFindDesc itunesImageTag item.children with
  | none => exact ⟨enc, henc, rfl⟩
  | some img =>
    cases hdl : (download_file net st (attrGet img "href") (images_folder cfg)).1 with
    | none =>
      refine ⟨enc, ?_, rfl⟩
      simp only [hdl]
      exact henc
    | some p =>
      simp only [hdl]
      unfold updFirstDesc
      cases hud : listUpdDesc itunesImageTag
          (fun e => e.setAttr "href" (os_relpath cfg.cwd p cfg.output_folder))
          item.children with
      | none => exact ⟨enc, henc, rfl⟩
      | some cs' =>
        have hfa := listUpdDesc_forall₂
          (fun e he => by rw [tag_setAttr, he]) _ _ hud
        have henc2 : item.children.find? (fun c => c.tag == "enclosure") = some enc := henc
        obtain ⟨enc', henc', hR⟩ := forall₂_find? (fun a b hab => hab.1) hfa henc2
        have htag : enc.tag = "enclosure" := find?_tag_eq henc2
        have hattr := (hR.2 (by rw [htag]; decide)).1
        exact ⟨enc', henc', hattr⟩

theorem updFirstChild_enclosure {item enc : Element} {f : Element → Element}
    (hf : ∀ e, e.tag = "enclosure" → (f e).tag = "enclosure")
    (henc : findChild item "enclosure" = some enc) :
    findChild (updFirstChild item "enclosure" f) "enclosure" = some (f enc) := by
  unfold updFirstChild
  cases hu : listUpdChild "enclosure" f item.children with
  | none =>
    rw [listUpdChild_none] at hu
    unfold findChild at henc
    rw [hu] at henc
    cases henc
  | some cs =>
    unfold findChild
    simp only [children_mk]
    rw [listUpdChild_find hf hu]
    unfold findChild at henc
    rw [henc]
    rfl

/-! ## Claim C2: enclosure length correction -/

/-- C2 (confirmed): when an item's enclosure download succeeds, the
rewritten `length` attribute is exactly the decimal rendering of the
byte size the downloaded file has on disk, whatever length the feed
declared, and the `url` attribute is the output-relative path. -/
theorem claim_C2 (net : String → NetResult) (cfg : Config) (st : DiskState)
    (item enc : Element) (u p : String) (st1 : DiskState)
    (henc : findChild item "enclosure" = some enc)
    (hurl : attrGet enc "url" = some u)
    (hdl : download_file net st (some u) (media_folder cfg) = (some p, st1)) :
    ∃ st' item' sz enc',
      processItem net cfg st item = .ok (st', item') ∧
      fsLookup st1.fs p = some sz ∧
      findChild item' "enclosure" = some enc' ∧
      attrGet enc' "length" = some (Nat.repr sz) ∧
      attrGet enc' "url" = some (os_relpath cfg.cwd p cfg.output_folder) := by
  obtain ⟨sz, hsz⟩ := download_file_success_lookup hdl
  have hlen : (fsLookup st1.fs p).getD 0 = sz := by rw [hsz]; rfl
  unfold processItem
  simp only [henc, hurl, hdl]
  have hitem1 := @updFirstChild_enclosure item enc
    (fun e => (e.setAttr "url" (os_relpath cfg.cwd p cfg.output_folder)).setAttr
      "length" (Nat.repr ((fsLookup st1.fs p).getD 0)))
    (fun e he => by simp [he]) henc
  obtain ⟨enc', henc', hattr⟩ := @imageStep_enclosure net cfg st1 _ _ hitem1
  refine ⟨_, _, sz, enc', rfl, hsz, henc', ?_, ?_⟩
  · rw [attrGet_congr hattr, hlen]
    exact attrGet_setAttr_same _ "length" (Nat.repr sz)
  · rw [attrGet_congr hattr,
      attrGet_setAttr_other _ "length" _ "url" (by decide)]
    exact attrGet_setAttr_same _ "url" _

/-- Witness for C2 on a concrete item whose enclosure download
succeeds with a 3-byte body. -/
theorem claim_C2_witness :
    findChild item7 "enclosure" = some encl7 ∧
    attrGet encl7 "url" = some "http://h/a.mp3" ∧
    download_file netOk3 stEmpty (some "http://h/a.mp3") (media_folder cfgX) =
      (some "/out/media/a.mp3",
        ⟨[("/out/media/a.mp3", 3)], [("http://h/a.mp3", "/out/media/a.mp3")]⟩) ∧
    (∃ st' item' sz enc',
      processItem netOk3 cfgX stEmpty item7 = .ok (st', item') ∧
      fsLookup (⟨[("/out/media/a.mp3", 3)],
        [("http://h/a.mp3", "/out/media/a.mp3")]⟩ : DiskState).fs "/out/media/a.mp3" =
          some sz ∧
      findChild item' "enclosure" = some enc' ∧
      attrGet enc' "length" = some (Nat.repr sz) ∧
      attrGet enc' "url" = some (os_relpath cfgX.cwd "/out/media/a.mp3"
        cfgX.output_folder)) :=
  ⟨rfl, rfl, rfl,
   claim_C2 netOk3 cfgX stEmpty item7 encl7 "http://h/a.mp3" "/out/media/a.mp3"
     ⟨[("/out/media/a.mp3", 3)], [("http://h/a.mp3", "/out/media/a.mp3")]⟩
     rfl rfl rfl⟩

/-! ## Claim C1: failed downloads leave references untouched -/

theorem processItem_total (net : String → NetResult) (cfg : Config) (st : DiskState)
    (item : Element)
    (hok : ∀ enc, findChild item "enclosure" = some enc → (attrGet enc "url").isSome) :
    ∃ st' item', processItem net cfg st item = .ok (st', item') := by
  unfold processItem
  rcases Option.eq_none_or_eq_some (findChild item "enclosure") with henc | ⟨enc, henc⟩
  · simp only [henc]
    exact ⟨_, _, rfl⟩
  · have hu := hok enc henc
    rcases Option.eq_none_or_eq_some (attrGet enc "url") with hurl | ⟨u, hurl⟩
    · rw [hurl] at hu
      simp at hu
    · rcases Option.eq_none_or_eq_some
          ((download_file net st (some u) (media_folder cfg)).1) with hdl | ⟨p, hdl⟩
      · simp only [henc, hurl, hdl]
        exact ⟨_, _, rfl⟩
      · simp only [henc, hurl, hdl]
        exact ⟨_, _, rfl⟩

theorem processChildren_total (net : String → NetResult) (cfg : Config) :
    ∀ (l : List Element) (st : DiskState),
    (∀ item ∈ l, ∀ enc, findChild item "enclosure" = some enc →
      (attrGet enc "url").isSome) →
    ∃ st' l', processChildren net cfg st l = .ok (st', l') ∧ l'.length = l.length := by
  intro l
  induction l with
  | nil => intro st hok; exact ⟨st, [], rfl, rfl⟩
  | cons c rest ih =>
    intro st hok
    by_cases htg : (c.tag == "item") = true
    · obtain ⟨st1, c', hc⟩ := processItem_total net cfg st c
        (hok c (List.mem_cons_self c rest))
      obtain ⟨st2, rest', hrest, hlen⟩ := ih st1
        (fun item hm => hok item (List.mem_cons_of_mem c hm))
      refine ⟨st2, c' :: rest', ?_, by simp [hlen]⟩
      unfold processChildren
      rw [if_pos htg]
      simp only [hc, hrest]
    · obtain ⟨st2, rest', hrest, hlen⟩ := ih st
        (fun item hm => hok item (List.mem_cons_of_mem c hm))
      refine ⟨st2, c :: rest', ?_, by simp [hlen]⟩
      unfold processChildren
      rw [if_neg htg]
      simp only [hrest]

/-- C1 (confirmed): every failed download leaves its reference exactly
as it was, and processing carries on. (1) If the channel cover download
returns `None`, the cover step returns the channel tree completely
unchanged. (2) If an episode image download returns `None`, the image
step returns the item completely unchanged. (3) If an enclosure
download returns `None`, the item keeps an enclosure child with its
original `url` and `length` attribute values and item processing still
completes. (4) The item loop always completes (with one output item per
input item) provided every present enclosure carries a `url` attribute
(without one, the code raises before `download_file` is even called). -/
theorem claim_C1 :
    (∀ (net : String → NetResult) (cfg : Config) (st st1 : DiskState)
      (ch img : Element),
      listFindDesc itunesImageTag ch.children = some img →
      download_file net st (attrGet img "href") (images_folder cfg) = (none, st1) →
      coverStep net cfg st ch = (st1, ch)) ∧
    (∀ (net : String → NetResult) (cfg : Config) (st st1 : DiskState)
      (item img : Element),
      listFindDesc itunesImageTag item.children = some img →
      download_file net st (attrGet img "href") (images_folder cfg) = (none, st1) →
      imageStep net cfg st item = (st1, item)) ∧
    (∀ (net : String → NetResult) (cfg : Config) (st st1 : DiskState)
      (item enc : Element) (u : String),
      findChild item "enclosure" = some enc →
      attrGet enc "url" = some u →
      download_file net st (some u) (media_folder cfg) = (none, st1) →
      ∃ st' item' enc',
        processItem net cfg st item = .ok (st', item') ∧
        findChild item' "enclosure" = some enc' ∧
        attrGet enc' "url" = attrGet enc "url" ∧
        attrGet enc' "length" = attrGet enc "length") ∧
    (∀ (net : String → NetResult) (cfg : Config) (st : DiskState) (l : List Element),
      (∀ item ∈ l, ∀ enc, findChild item "enclosure" = some enc →
        (attrGet enc "url").isSome) →
      ∃ st' l', processChildren net cfg st l = .ok (st', l') ∧
        l'.length = l.length) := by
  refine ⟨?_, ?_, ?_, ?_⟩
  · intro net cfg st st1 ch img hf hdl
    unfold coverStep
    simp only [hf, hdl]
  · intro net cfg st st1 item img hf hdl
    unfold imageStep
    simp only [hf, hdl]
  · intro net cfg st st1 item enc u henc hurl hdl
    unfold processItem
    simp only [henc, hurl, hdl]
    obtain ⟨enc', henc', hattr⟩ := @imageStep_enclosure net cfg st1 _ _ henc
    exact ⟨(imageStep net cfg st1 item).1, (imageStep net cfg st1 item).2, enc',
      rfl, henc', (attrGet_congr hattr "url").trans hurl,
      attrGet_congr hattr "length"⟩
  · intro net cfg st l hok
    exact processChildren_total net cfg l st hok

/-- Witness for C1: a channel and an item whose downloads all fail. -/
theorem claim_C1_witness :
    (listFindDesc itunesImageTag chanC1.children = some imgC1 ∧
      download_file netFail stEmpty (attrGet imgC1 "href") (images_folder cfgX) =
        (none, stFail1) ∧
      coverStep netFail cfgX stEmpty chanC1 = (stFail1, chanC1)) ∧
    (listFindDesc itunesImageTag itemC1.children = some imgC1 ∧
      download_file netFail stEmpty (attrGet imgC1 "href") (images_folder cfgX) =
        (none, stFail1) ∧
      imageStep netFail cfgX stEmpty itemC1 = (stFail1, itemC1)) ∧
    (findChild itemC1 "enclosure" = some enclC1 ∧
      attrGet enclC1 "url" = some "http://h/a.mp3" ∧
      download_file netFail stEmpty (some "http://h/a.mp3") (media_folder cfgX) =
        (none, stFailA) ∧
      (∃ st' item' enc',
        processItem netFail cfgX stEmpty itemC1 = .ok (st', item') ∧
        findChild item' "enclosure" = some enc' ∧
        attrGet enc' "url" = attrGet enclC1 "url" ∧
        attrGet enc' "length" = attrGet enclC1 "length")) ∧
    ((∀ item ∈ [itemC1], ∀ enc, findChild item "enclosure" = some enc →
        (attrGet enc "url").isSome) ∧
      ∃ st' l', processChildren netFail cfgX stEmpty [itemC1] = .ok (st', l') ∧
        l'.length = [itemC1].length) :=
  ⟨⟨lfdF_sound (show lfdF 20 itunesImageTag chanC1.children = some (some imgC1) from rfl),
    rfl,
    claim_C1.1 netFail cfgX stEmpty stFail1 chanC1 imgC1
      (lfdF_sound (show lfdF 20 itunesImageTag chanC1.children = some (some imgC1) from rfl))
      rfl⟩,
   ⟨lfdF_sound (show lfdF 20 itunesImageTag itemC1.children = some (some imgC1) from rfl),
    rfl,
    claim_C1.2.1 netFail cfgX stEmpty stFail1 itemC1 imgC1
      (lfdF_sound (show lfdF 20 itunesImageTag itemC1.children = some (some imgC1) from rfl))
      rfl⟩,
   ⟨rfl, rfl, rfl,
    claim_C1.2.2.1 netFail cfgX stEmpty stFailA itemC1 enclC1 "http://h/a.mp3"
      rfl rfl rfl⟩,
   ⟨fun item hm enc henc => by
      simp only [List.mem_singleton] at hm
      subst hm
      have h2 : enclC1 = enc := Option.some.inj henc
      rw [← h2]
      rfl,
    claim_C1.2.2.2 netFail cfgX stEmpty [itemC1]
      (fun item hm enc henc => by
        simp only [List.mem_singleton] at hm
        subst hm
        have h2 : enclC1 = enc := Option.some.inj henc
        rw [← h2]
        rfl)⟩⟩

/-! ## Claim C3: items are neither added, dropped nor reordered -/

theorem updFirstDesc_shapeE {f : Element → Element}
    (hf : ∀ x, shapeE (f x) = shapeE x) (e : Element) (t : String) :
    shapeE (updFirstDesc e t f) = shapeE e := by
  unfold updFirstDesc
  cases hud : listUpdDesc t f e.children with
  | none => rfl
  | some cs' =>
    unfold shapeE
    simp only [children_mk, tag_mk]
    rw [listUpdDesc_shape hf _ _ hud]

theorem updFirstChild_shapeE {f : Element → Element}
    (hf : ∀ x, shapeE (f x) = shapeE x) (e : Element) (t : String) :
    shapeE (updFirstChild e t f) = shapeE e := by
  unfold updFirstChild
  cases hu : listUpdChild t f e.children with
  | none => rfl
  | some cs' =>
    unfold shapeE
    simp only [children_mk, tag_mk]
    rw [listUpdChild_shape hf _ _ hu]

theorem imageStep_shape (net : String → NetResult) (cfg : Config) (st : DiskState)
    (item : Element) : shapeE (imageStep net cfg st item).2 = shapeE item := by
  unfold imageStep
  cases hf : listFindDesc itunesImageTag item.children with
  | none => rfl
  | some img =>
    cases hdl : (download_file net st (attrGet img "href") (images_folder cfg)).1 with
    | none => simp [hdl]
    | some p =>
      simp only [hdl]
      exact updFirstDesc_shapeE (fun x => shapeE_setAttr x _ _) item itunesImageTag

theorem processItem_shape {net : String → NetResult} {cfg : Config} {st : DiskState}
    {item : Element} {st' : DiskState} {item' : Element}
    (h : processItem net cfg st item = .ok (st', item')) :
    shapeE item' = shapeE item := by
  unfold processItem at h
  rcases Option.eq_none_or_eq_some (findChild item "enclosure") with henc | ⟨enc, henc⟩
  · simp only [henc] at h
    have h2 : (imageStep net cfg st item).2 = item' :=
      congrArg Prod.snd (Except.ok.inj h)
    rw [← h2]
    exact imageStep_shape net cfg st item
  · simp only [henc] at h
    rcases Option.eq_none_or_eq_some (attrGet enc "url") with hurl | ⟨u, hurl⟩
    · simp only [hurl] at h
      exact Except.noConfusion h
    · simp only [hurl] at h
      rcases Option.eq_none_or_eq_some
          ((download_file net st (some u) (media_folder cfg)).1) with hdl | ⟨p, hdl⟩
      · simp only [hdl] at h
        have h2 : (imageStep net cfg
            (download_file net st (some u) (media_folder cfg)).2 item).2 = item' :=
          congrArg Prod.snd (Except.ok.inj h)
        rw [← h2]
        exact imageStep_shape net cfg _ item
      · simp only [hdl] at h
        have h2 : (imageStep net cfg
            (download_file net st (some u) (media_folder cfg)).2
            (updFirstChild item "enclosure" (fun e =>
              (e.setAttr "url" (os_relpath cfg.cwd p cfg.output_folder)).setAttr "length"
                ((fsLookup (download_file net st (some u) (media_folder cfg)).2.fs p).getD
                  0).repr))).2 = item' :=
          congrArg Prod.snd (Except.ok.inj h)
        rw [← h2]
        rw [imageStep_shape]
        exact updFirstChild_shapeE
          (fun x => by rw [shapeE_setAttr, shapeE_setAttr]) item "enclosure"

theorem processChildren_shape {net : String → NetResult} {cfg : Config} :
    ∀ {st : DiskState} {l : List Element} {st2 : DiskState} {l2 : List Element},
    processChildren net cfg st l = .ok (st2, l2) → shapeL l2 = shapeL l := by
  intro st l
  induction l generalizing st with
  | nil =>
    intro st2 l2 h
    unfold processChildren at h
    cases h
    rfl
  | cons c rest ih =>
    intro st2 l2 h
    unfold processChildren at h
    by_cases htg : (c.tag == "item") = true
    · rw [if_pos htg] at h
      cases hpi : processItem net cfg st c with
      | error e => simp only [hpi] at h; exact Except.noConfusion h
      | ok pr =>
        obtain ⟨st1, c1⟩ := pr
        simp only [hpi] at h
        cases hrest : processChildren net cfg st1 rest with
        | error e => simp only [hrest] at h; exact Except.noConfusion h
        | ok pr2 =>
          obtain ⟨st2', rest2⟩ := pr2
          simp only [hrest] at h
          have h2 : c1 :: rest2 = l2 := congrArg Prod.snd (Except.ok.inj h)
          rw [← h2, shapeL_cons, shapeL_cons, processItem_shape hpi, ih hrest]
    · rw [if_neg htg] at h
      cases hrest : processChildren net cfg st rest with
      | error e => simp only [hrest] at h; exact Except.noConfusion h
      | ok pr2 =>
        obtain ⟨st2', rest2⟩ := pr2
        simp only [hrest] at h
        have h2 : c :: rest2 = l2 := congrArg Prod.snd (Except.ok.inj h)
        rw [← h2, shapeL_cons, shapeL_cons, ih hrest]

theorem coverStep_children_shape (net : String → NetResult) (cfg : Config)
    (st : DiskState) (ch : Element) :
    shapeL (coverStep net cfg st ch).2.children = shapeL ch.children := by
  unfold coverStep
  cases hf : listFindDesc itunesImageTag ch.children with
  | none => rfl
  | some img =>
    cases hdl : (download_file net st (attrGet img "href") (images_folder cfg)).1 with
    | none => simp [hdl]
    | some p =>
      simp only [hdl]
      have hch1 : shapeL (updFirstDesc ch itunesImageTag
          (fun e => e.setAttr "href" (os_relpath cfg.cwd p cfg.output_folder))).children =
          shapeL ch.children := by
        unfold updFirstDesc
        cases hud : listUpdDesc itunesImageTag
            (fun e => e.setAttr "href" (os_relpath cfg.cwd p cfg.output_folder))
            ch.children with
        | none => rfl
        | some cs0 =>
          simp only [children_mk]
          exact listUpdDesc_shape (fun x => shapeE_setAttr x _ _) _ _ hud
      cases hui : listUpdImageUrl
          (fun e => e.setText (os_relpath cfg.cwd p cfg.output_folder))
          (updFirstDesc ch itunesImageTag
            (fun e => e.setAttr "href" (os_relpath cfg.cwd p cfg.output_folder))).children with
      | none => simp only [hui]; exact hch1
      | some cs =>
        simp only [hui, children_mk]
        rw [listUpdImageUrl_shape (fun x => shapeE_setText x _) _ _ hui]
        exact hch1

theorem update_meta_children_shape (now : UtcTime) (ch : Element) :
    shapeL (update_feed_metadata now ch).children = shapeL ch.children := by
  unfold update_feed_metadata
  simp only [children_mk]
  rw [shapeL_map (fun c => by
    by_cases hcond : ((c.tag == atomLinkTag) = true) ∧ attrGet c "rel" = some "self"
    · rw [if_pos hcond]; exact shapeE_setAttr c _ _
    · rw [if_neg hcond])]
  cases hu : listUpdChild "lastBuildDate"
      (fun e => e.setText (formatLastBuild now)) ch.children with
  | none => rfl
  | some cs =>
    simp only [children_mk]
    exact listUpdChild_shape (fun x => shapeE_setText x _) _ _ hu

/-- C3 (confirmed): the item sequence survives the run intact — the
output channel has exactly as many `item` children as the input channel,
in the same order, and each output item has the same tag-and-nesting
skeleton as the corresponding input item (only attribute values and text
are mutated, nothing is inserted, removed or reordered). -/
theorem claim_C3 (net : String → NetResult) (cfg : Config) (now : UtcTime)
    (st : DiskState) (root : Element) (st' : DiskState) (t' : Element) (ch : Element)
    (h : process_feed_tree net cfg now st root = .ok (st', t'))
    (hch : findChild root "channel" = some ch) :
    ∃ ch', findChild t' "channel" = some ch' ∧
      (itemsOf ch').map shapeE = (itemsOf ch).map shapeE ∧
      (itemsOf ch').length = (itemsOf ch).length := by
  simp only [process_feed_tree, hch] at h
  cases hpc : processChildren net cfg (coverStep net cfg st ch).1
      (coverStep net cfg st ch).2.children with
  | error e => rw [hpc] at h; cases h
  | ok r =>
    obtain ⟨st2, cs2⟩ := r
    rw [hpc] at h
    simp only at h
    cases h
    set ch3 := update_feed_metadata now
      (Element.mk (coverStep net cfg st ch).2.tag (coverStep net cfg st ch).2.attrib
        (coverStep net cfg st ch).2.textVal cs2) with hch3
    have hshape : shapeL ch3.children = shapeL ch.children := by
      rw [hch3, update_meta_children_shape]
      simp only [children_mk]
      rw [processChildren_shape hpc]
      exact coverStep_children_shape net cfg st ch
    have hmaps := shape_filter_items _ _ hshape
    refine ⟨ch3, ?_, ?_, ?_⟩
    · apply replaceChannel_find
      · rw [hch]; rfl
      · rw [hch3, update_meta_tag, tag_mk, coverStep_tag]
        exact find?_tag_eq hch
    · exact hmaps
    · have := congrArg List.length hmaps
      simpa [itemsOf] using this

/-- Witness for C3 on a one-item concrete feed. -/
theorem claim_C3_witness :
    process_feed_tree netOk3 cfgX nowX stEmpty feed7 = .ok (st7out, tree7out) ∧
    findChild feed7 "channel" = some chan7 ∧
    (∃ ch', findChild tree7out "channel" = some ch' ∧
      (itemsOf ch').map shapeE = (itemsOf chan7).map shapeE ∧
      (itemsOf ch').length = (itemsOf chan7).length) :=
  ⟨processTreeF_sound (show processTreeF 20 netOk3 cfgX nowX stEmpty feed7 =
      some (.ok (st7out, tree7out)) from rfl),
   rfl,
   claim_C3 netOk3 cfgX nowX stEmpty feed7 st7out tree7out chan7
     (processTreeF_sound (show processTreeF 20 netOk3 cfgX nowX stEmpty feed7 =
        some (.ok (st7out, tree7out)) from rfl))
     rfl⟩

/-! ## Claim C10: the cover lookup is a descendant search -/

theorem listFindDesc_append_none (t : String) :
    ∀ l₁ l₂ : List Element, listFindDesc t l₁ = none →
      listFindDesc t (l₁ ++ l₂) = listFindDesc t l₂ := by
  intro l₁
  induction l₁ with
  | nil => intro l₂ _; rfl
  | cons c rest ih =>
    intro l₂ h
    cases c with
    | mk tg a x cs =>
      by_cases htg : (tg == t) = true
      · simp only [listFindDesc, htg, if_true] at h
        exact Option.noConfusion h
      · simp only [listFindDesc, htg, Bool.false_eq_true, if_false] at h
        cases hcs : listFindDesc t cs with
        | some e =>
          simp only [hcs] at h
          exact Option.noConfusion h
        | none =>
          simp only [hcs] at h
          show listFindDesc t (Element.mk tg a x cs :: (rest ++ l₂)) = listFindDesc t l₂
          simp only [listFindDesc, htg, Bool.false_eq_true, if_false, hcs]
          exact ih l₂ h

theorem listUpdDesc_findDesc {t : String} {f : Element → Element}
    (hf : ∀ e, (f e).tag = e.tag) :
    ∀ l l' y, listFindDesc t l = some y → listUpdDesc t f l = some l' →
      listFindDesc t l' = some (f y) := by
  intro l
  induction l using listUpdDesc.induct t f with
  | case1 => intro l' y hfind hupd; simp [listUpdDesc] at hupd
  | case2 tg a x0 cs rest htg =>
    intro l' y hfind hupd
    simp only [listUpdDesc, htg, if_true] at hupd
    injection hupd with h2
    subst h2
    simp only [listFindDesc, htg, if_true] at hfind
    injection hfind with hy
    subst hy
    have htag2 := hf (Element.mk tg a x0 cs)
    cases hfe : f (Element.mk tg a x0 cs) with
    | mk tg2 a2 x2 cs2 =>
      rw [hfe] at htag2
      simp only [tag_mk] at htag2
      have htg2' : (tg2 == t) = true := by rw [htag2]; exact htg
      simp only [listFindDesc, htg2', if_true]
  | case3 tg a x0 cs rest htg cs' hcs ih =>
    intro l' y hfind hupd
    simp only [listUpdDesc, htg, Bool.false_eq_true, if_false, hcs] at hupd
    injection hupd with h2
    subst h2
    simp only [listFindDesc, htg, Bool.false_eq_true, if_false] at hfind
    cases hfc : listFindDesc t cs with
    | none =>
      have h0 : listUpdDesc t f cs = none := (listUpdDesc_none t f cs).mpr hfc
      rw [h0] at hcs
      exact Option.noConfusion hcs
    | some z =>
      simp only [hfc] at hfind
      injection hfind with hzy
      subst hzy
      have h2 := ih cs' z hfc hcs
      simp only [listFindDesc, htg, Bool.false_eq_true, if_false, h2]
  | case4 tg a x0 cs rest htg hcs rest' hrest ihcs ihrest =>
    intro l' y hfind hupd
    simp only [listUpdDesc, htg, Bool.false_eq_true, if_false, hcs, hrest] at hupd
    injection hupd with h2
    subst h2
    have hfc : listFindDesc t cs = none := (listUpdDesc_none t f cs).mp hcs
    simp only [listFindDesc, htg, Bool.false_eq_true, if_false, hfc] at hfind
    have h2 := ihrest rest' y hfind hrest
    simp only [listFindDesc, htg, Bool.false_eq_true, if_false, hfc, h2]
  | case5 tg a x0 cs rest htg hcs hrest ihcs ihrest =>
    intro l' y hfind hupd
    simp [listUpdDesc, htg, hcs, hrest] at hupd

theorem find?_none_shape {t : String} :
    ∀ {l₁ l₂ : List Element}, shapeL l₁ = shapeL l₂ →
      l₁.find? (fun c => c.tag == t) = none →
      l₂.find? (fun c => c.tag == t) = none := by
  intro l₁
  induction l₁ with
  | nil =>
    intro l₂ hs h
    cases l₂ with
    | nil => rfl
    | cons c r =>
      rw [shapeL_nil, shapeL_cons] at hs
      exact List.noConfusion hs
  | cons c rest ih =>
    intro l₂ hs h
    cases l₂ with
    | nil => rfl
    | cons c₂ r₂ =>
      rw [shapeL_cons, shapeL_cons] at hs
      injection hs with hse hsr
      have htg : c₂.tag = c.tag := by
        have h2 := congrArg Element.tag hse
        rw [tag_shapeE, tag_shapeE] at h2
        exact h2.symm
      cases hm : (c.tag == t) with
      | true =>
        rw [@List.find?_cons_of_pos _ (fun c => c.tag == t) c rest hm] at h
        exact Option.noConfusion h
      | false =>
        rw [@List.find?_cons_of_neg _ (fun c => c.tag == t) c rest (by simp [hm])] at h
        rw [@List.find?_cons_of_neg _ (fun c => c.tag == t) c₂ r₂
              (by show ¬(c₂.tag == t) = true; rw [htg]; simp [hm])]
        exact ih hsr h

theorem listUpdImageUrl_none_shape {g g' : Element → Element} :
    ∀ (l₁ l₂ : List Element), shapeL l₁ = shapeL l₂ →
      listUpdImageUrl g l₁ = none → listUpdImageUrl g' l₂ = none := by
  intro l₁
  induction l₁ with
  | nil =>
    intro l₂ hs h
    cases l₂ with
    | nil => rfl
    | cons c r =>
      rw [shapeL_nil, shapeL_cons] at hs
      exact List.noConfusion hs
  | cons c rest ih =>
    intro l₂ hs h
    cases l₂ with
    | nil =>
      rw [shapeL_cons, shapeL_nil] at hs
      exact List.noConfusion hs
    | cons c₂ r₂ =>
      rw [shapeL_cons, shapeL_cons] at hs
      injection hs with hse hsr
      cases c with
      | mk tg a x cs =>
        cases c₂ with
        | mk tg2 a2 x2 cs2 =>
          simp only [shapeE, tag_mk, children_mk] at hse
          injection hse with htg h2 h3 hcs
          subst htg
          cases htgi : (tg == "image") with
          | true =>
            simp only [listUpdImageUrl, htgi, if_true] at h ⊢
            have hu : listUpdChild "url" g cs = none := by
              cases hu0 : listUpdChild "url" g cs with
              | none => rfl
              | some cs' =>
                simp only [hu0] at h
                exact Option.noConfusion h
            have hr : listUpdImageUrl g rest = none := by
              simp only [hu] at h
              cases hr0 : listUpdImageUrl g rest with
              | none => rfl
              | some r' =>
                rw [hr0] at h
                simp only [Option.map_some'] at h
                exact Option.noConfusion h
            have hu2 : listUpdChild "url" g' cs2 = none := by
              rw [listUpdChild_none] at hu ⊢
              exact find?_none_shape hcs hu
            have hr2 : listUpdImageUrl g' r₂ = none := ih r₂ hsr hr
            simp [hu2, hr2]
          | false =>
            simp only [listUpdImageUrl, htgi, Bool.false_eq_true, if_false] at h ⊢
            have hr : listUpdImageUrl g rest = none := by
              cases hr0 : listUpdImageUrl g rest with
              | none => rfl
              | some r' =>
                rw [hr0] at h
                simp only [Option.map_some'] at h
                exact Option.noConfusion h
            have hr2 : listUpdImageUrl g' r₂ = none := ih r₂ hsr hr
            simp [hr2]

/-- C10 (confirmed): `channel.find('.//itunes:image')` is a descendant
search. When no element of the channel prefix before some `item` contains
(or is) an itunes image, but that item holds one, the channel cover step
selects exactly that episode-level image element, downloads its `href`
URL, and rewrites the element's `href` to the relative path of the
downloaded file — as if it were the channel cover. (The channel is
assumed to carry no plain `image/url` form, so only the itunes element is
rewritten.) -/
theorem claim_C10 (net : String → NetResult) (cfg : Config) (st : DiskState)
    (ch item img : Element) (pre post : List Element) (u p : String)
    (hsplit : ch.children = pre ++ item :: post)
    (hpre : listFindDesc itunesImageTag pre = none)
    (hitag : item.tag = "item")
    (hfind : listFindDesc itunesImageTag item.children = some img)
    (hhref : attrGet img "href" = some u)
    (hdl : (download_file net st (some u) (images_folder cfg)).1 = some p)
    (hplain : listUpdImageUrl (fun e => e) ch.children = none) :
    listFindDesc itunesImageTag ch.children = some img ∧
    (coverStep net cfg st ch).1 = (download_file net st (some u) (images_folder cfg)).2 ∧
    ∃ img', listFindDesc itunesImageTag (coverStep net cfg st ch).2.children = some img' ∧
      img' = img.setAttr "href" (os_relpath cfg.cwd p cfg.output_folder) ∧
      attrGet img' "href" = some (os_relpath cfg.cwd p cfg.output_folder) := by
  have hsel : listFindDesc itunesImageTag ch.children = some img := by
    rw [hsplit, listFindDesc_append_none itunesImageTag pre (item :: post) hpre]
    cases item with
    | mk tg a x cs =>
      simp only [tag_mk] at hitag
      simp only [children_mk] at hfind
      subst hitag
      have hne : (("item" : String) == itunesImageTag) = true → False := by decide
      simp only [listFindDesc, Bool.eq_false_iff.mpr hne, Bool.false_eq_true, if_false, hfind]
  have hudE : ∃ cs', listUpdDesc itunesImageTag
      (fun e => e.setAttr "href" (os_relpath cfg.cwd p cfg.output_folder))
      ch.children = some cs' := by
    cases hud0 : listUpdDesc itunesImageTag
        (fun e => e.setAttr "href" (os_relpath cfg.cwd p cfg.output_folder))
        ch.children with
    | none =>
      rw [listUpdDesc_none] at hud0
      rw [hud0] at hsel
      exact Option.noConfusion hsel
    | some cs' => exact ⟨cs', rfl⟩
  obtain ⟨cs', hud⟩ := hudE
  have hch1 : updFirstDesc ch itunesImageTag
      (fun e => e.setAttr "href" (os_relpath cfg.cwd p cfg.output_folder)) =
      Element.mk ch.tag ch.attrib ch.textVal cs' := by
    unfold updFirstDesc
    rw [hud]
  have htrans : listUpdImageUrl
      (fun e => e.setText (os_relpath cfg.cwd p cfg.output_folder)) cs' = none :=
    listUpdImageUrl_none_shape ch.children cs'
      ((listUpdDesc_shape (fun e => shapeE_setAttr e "href" _) ch.children cs' hud).symm)
      hplain
  have hcov : coverStep net cfg st ch =
      ((download_file net st (some u) (images_folder cfg)).2,
       Element.mk ch.tag ch.attrib ch.textVal cs') := by
    unfold coverStep
    simp only [hsel, hhref, hdl, hch1, children_mk, htrans]
  refine ⟨hsel, ?_, ?_⟩
  · rw [hcov]
  · refine ⟨img.setAttr "href" (os_relpath cfg.cwd p cfg.output_folder), ?_, rfl,
      attrGet_setAttr_same img "href" _⟩
    rw [hcov]
    simp only [children_mk]
    exact listUpdDesc_findDesc (fun e => tag_setAttr e "href" _) ch.children cs' img hsel hud

/-- Witness for C10: a channel whose only itunes image lives inside its
item; the cover step selects, downloads and rewrites it. -/
theorem claim_C10_witness :
    chanC10.children = [titleC10] ++ itemC10 :: [] ∧
    listFindDesc itunesImageTag [titleC10] = none ∧
    itemC10.tag = "item" ∧
    listFindDesc itunesImageTag itemC10.children = some imgC1 ∧
    attrGet imgC1 "href" = some "http://h/img.jpg" ∧
    (download_file netOk3 stEmpty (some "http://h/img.jpg") (images_folder cfgX)).1 =
      some "/out/images/img.jpg" ∧
    listUpdImageUrl (fun e => e) chanC10.children = none ∧
    (listFindDesc itunesImageTag chanC10.children = some imgC1 ∧
      (coverStep netOk3 cfgX stEmpty chanC10).1 =
        (download_file netOk3 stEmpty (some "http://h/img.jpg") (images_folder cfgX)).2 ∧
      ∃ img', listFindDesc itunesImageTag
          (coverStep netOk3 cfgX stEmpty chanC10).2.children = some img' ∧
        img' = imgC1.setAttr "href"
          (os_relpath cfgX.cwd "/out/images/img.jpg" cfgX.output_folder) ∧
        attrGet img' "href" =
          some (os_relpath cfgX.cwd "/out/images/img.jpg" cfgX.output_folder)) :=
  ⟨rfl,
   lfdF_sound (show lfdF 20 itunesImageTag [titleC10] = some none from rfl),
   rfl,
   lfdF_sound (show lfdF 20 itunesImageTag itemC10.children = some (some imgC1) from rfl),
   rfl,
   rfl,
   rfl,
   claim_C10 netOk3 cfgX stEmpty chanC10 itemC10 imgC1 [titleC10] [] "http://h/img.jpg"
     "/out/images/img.jpg"
     rfl
     (lfdF_sound (show lfdF 20 itunesImageTag [titleC10] = some none from rfl))
     rfl
     (lfdF_sound (show lfdF 20 itunesImageTag itemC10.children = some (some imgC1) from rfl))
     rfl rfl rfl⟩

/-! ## Claim C4: caching and replay -/

theorem imageStep_fsLe (net : String → NetResult) (cfg : Config) (st : DiskState)
    (item : Element) : fsLe st.fs (imageStep net cfg st item).1.fs := by
  unfold imageStep
  cases hf : listFindDesc itunesImageTag item.children with
  | none => exact fsLe_refl _
  | some img =>
    cases hdl : (download_file net st (attrGet img "href") (images_folder cfg)).1 with
    | none =>
      simp only [hdl]
      exact download_file_fsLe rfl
    | some p =>
      simp only [hdl]
      exact download_file_fsLe rfl

theorem coverStep_fsLe (net : String → NetResult) (cfg : Config) (st : DiskState)
    (ch : Element) : fsLe st.fs (coverStep net cfg st ch).1.fs := by
  unfold coverStep
  cases hf : listFindDesc itunesImageTag ch.children with
  | none => exact fsLe_refl _
  | some img =>
    cases hdl : (download_file net st (attrGet img "href") (images_folder cfg)).1 with
    | none =>
      simp only [hdl]
      exact download_file_fsLe rfl
    | some p =>
      simp only [hdl]
      exact download_file_fsLe rfl

theorem processItem_fsLe {net : String → NetResult} {cfg : Config} {st : DiskState}
    {item : Element} {st' : DiskState} {item' : Element}
    (h : processItem net cfg st item = .ok (st', item')) : fsLe st.fs st'.fs := by
  unfold processItem at h
  cases henc : findChild item "enclosure" with
  | none =>
    simp only [henc] at h
    have h2 : (imageStep net cfg st item).1 = st' :=
      congrArg Prod.fst (Except.ok.inj h)
    rw [← h2]
    exact imageStep_fsLe net cfg st item
  | some enc =>
    simp only [henc] at h
    cases hurl : attrGet enc "url" with
    | none =>
      simp only [hurl] at h
      exact Except.noConfusion h
    | some au =>
      simp only [hurl] at h
      cases hdl : (download_file net st (some au) (media_folder cfg)).1 with
      | none =>
        simp only [hdl] at h
        have h2 : (imageStep net cfg
            (download_file net st (some au) (media_folder cfg)).2 item).1 = st' :=
          congrArg Prod.fst (Except.ok.inj h)
        rw [← h2]
        exact fsLe_trans (@download_file_fsLe net st (some au) (media_folder cfg) _ _ rfl)
          (imageStep_fsLe net cfg (download_file net st (some au) (media_folder cfg)).2 item)
      | some p =>
        simp only [hdl] at h
        have h2 : (imageStep net cfg
            (download_file net st (some au) (media_folder cfg)).2
            (updFirstChild item "enclosure" (fun e =>
              (e.setAttr "url" (os_relpath cfg.cwd p cfg.output_folder)).setAttr "length"
                ((fsLookup (download_file net st (some au) (media_folder cfg)).2.fs p).getD
                  0).repr))).1 = st' :=
          congrArg Prod.fst (Except.ok.inj h)
        rw [← h2]
        exact fsLe_trans (@download_file_fsLe net st (some au) (media_folder cfg) _ _ rfl)
          (imageStep_fsLe net cfg (download_file net st (some au) (media_folder cfg)).2 _)

theorem processChildren_fsLe {net : String → NetResult} {cfg : Config} :
    ∀ {l : List Element} {st st' : DiskState} {l' : List Element},
    processChildren net cfg st l = .ok (st', l') → fsLe st.fs st'.fs := by
  intro l
  induction l with
  | nil =>
    intro st st' l' h
    unfold processChildren at h
    cases h
    exact fsLe_refl _
  | cons c rest ih =>
    intro st st' l' h
    unfold processChildren at h
    by_cases htg : (c.tag == "item") = true
    · rw [if_pos htg] at h
      cases hpi : processItem net cfg st c with
      | error e => simp only [hpi] at h; exact Except.noConfusion h
      | ok pr =>
        obtain ⟨st1, c1⟩ := pr
        simp only [hpi] at h
        cases hrest : processChildren net cfg st1 rest with
        | error e => simp only [hrest] at h; exact Except.noConfusion h
        | ok pr2 =>
          obtain ⟨st2, rest2⟩ := pr2
          simp only [hrest] at h
          have hA : st2 = st' := congrArg Prod.fst (Except.ok.inj h)
          rw [← hA]
          exact fsLe_trans (processItem_fsLe hpi) (ih hrest)
    · rw [if_neg htg] at h
      cases hrest : processChildren net cfg st rest with
      | error e => simp only [hrest] at h; exact Except.noConfusion h
      | ok pr2 =>
        obtain ⟨st2, rest2⟩ := pr2
        simp only [hrest] at h
        have hA : st2 = st' := congrArg Prod.fst (Except.ok.inj h)
        rw [← hA]
        exact ih hrest

/-- Replaying one `download_file` call after a completed first run: if no
transfer can fail mid-way, the first run's final filesystem `st1.fs`
extends this call's post-state, and any outright-failing URL has no file
at its destination in `st1.fs`, then repeating the call from any state
whose filesystem is `st1.fs` returns the same path and leaves the
filesystem unchanged. -/
theorem download_replay {net : String → NetResult} {u folder : String}
    {st st1 : DiskState} (s : DiskState)
    (H1 : ∀ k, net u ≠ .failMid k)
    (hmono : fsLe (download_file net st (some u) folder).2.fs st1.fs)
    (Hfail : net u = .failEarly →
      fsLookup st1.fs (os_join folder (derived_filename u)) = none)
    (hs : s.fs = st1.fs) :
    (download_file net s (some u) folder).1 =
      (download_file net st (some u) folder).1 ∧
    (download_file net s (some u) folder).2.fs = st1.fs := by
  cases hne0 : u.data.isEmpty with
  | true =>
    simp only [download_file, hne0, if_true]
    exact ⟨trivial, hs⟩
  | false =>
    cases hhas1 : fsHas st.fs (os_join folder (derived_filename u)) with
    | true =>
      have h1 := @download_file_skip net st u folder hne0 hhas1
      have hlk : ∃ n, fsLookup st.fs (os_join folder (derived_filename u)) = some n := by
        simpa [fsHas, Option.isSome_iff_exists] using hhas1
      obtain ⟨n, hlk⟩ := hlk
      rw [h1] at hmono
      have hlk1 : fsLookup st1.fs (os_join folder (derived_filename u)) = some n :=
        hmono _ _ hlk
      have hhas2 : fsHas s.fs (os_join folder (derived_filename u)) = true := by
        rw [fsHas, hs, hlk1]
        rfl
      have h2 := @download_file_skip net s u folder hne0 hhas2
      rw [h1, h2]
      exact ⟨rfl, hs⟩
    | false =>
      have hlk0 : fsLookup st.fs (os_join folder (derived_filename u)) = none := by
        cases hl : fsLookup st.fs (os_join folder (derived_filename u)) with
        | none => rfl
        | some m =>
          rw [fsHas, hl] at hhas1
          exact Bool.noConfusion hhas1
      cases hn : net u with
      | ok sz =>
        have h1 : download_file net st (some u) folder =
            (some (os_join folder (derived_filename u)),
             ⟨st.fs ++ [(os_join folder (derived_filename u), sz)],
              st.log ++ [(u, os_join folder (derived_filename u))]⟩) := by
          simp only [download_file, hne0, Bool.false_eq_true, if_false, hhas1, hn]
        have hlkA : fsLookup (st.fs ++ [(os_join folder (derived_filename u), sz)])
            (os_join folder (derived_filename u)) = some sz :=
          fsLookup_append_self _ _ _ hlk0
        rw [h1] at hmono
        have hlk1 : fsLookup st1.fs (os_join folder (derived_filename u)) = some sz :=
          hmono _ _ hlkA
        have hhas2 : fsHas s.fs (os_join folder (derived_filename u)) = true := by
          rw [fsHas, hs, hlk1]
          rfl
        have h2 := @download_file_skip net s u folder hne0 hhas2
        rw [h1, h2]
        exact ⟨rfl, hs⟩
      | failEarly =>
        have h1 : download_file net st (some u) folder =
            (none, ⟨st.fs, st.log ++ [(u, os_join folder (derived_filename u))]⟩) := by
          simp only [download_file, hne0, Bool.false_eq_true, if_false, hhas1, hn]
        have hhas2 : fsHas s.fs (os_join folder (derived_filename u)) = false := by
          rw [fsHas, hs, Hfail hn]
          rfl
        have h2 : download_file net s (some u) folder =
            (none, ⟨s.fs, s.log ++ [(u, os_join folder (derived_filename u))]⟩) := by
          simp only [download_file, hne0, Bool.false_eq_true, if_false, hhas2, hn]
        rw [h1, h2]
        exact ⟨rfl, hs⟩
      | failMid k => exact absurd hn (H1 k)

theorem imageStep_replay {net : String → NetResult} {cfg : Config}
    {st stA st1 : DiskState} {item item' : Element} (s : DiskState)
    (h1 : imageStep net cfg st item = (stA, item'))
    (H1 : ∀ v k, net v ≠ .failMid k)
    (HfailI : ∀ v, net v = .failEarly →
      fsLookup st1.fs (os_join (images_folder cfg) (derived_filename v)) = none)
    (hmono : fsLe stA.fs st1.fs)
    (hs : s.fs = st1.fs) :
    ∃ s', imageStep net cfg s item = (s', item') ∧ s'.fs = st1.fs := by
  unfold imageStep at h1 ⊢
  cases hf : listFindDesc itunesImageTag item.children with
  | none =>
    simp only [hf] at h1 ⊢
    injection h1 with hA hB
    exact ⟨s, by rw [← hB], hs⟩
  | some img =>
    simp only [hf] at h1 ⊢
    cases hag : attrGet img "href" with
    | none =>
      simp only [hag] at h1 ⊢
      simp only [download_file] at h1 ⊢
      injection h1 with hA hB
      exact ⟨s, by rw [← hB], hs⟩
    | some w =>
      simp only [hag] at h1 ⊢
      have hdmono : fsLe (download_file net st (some w) (images_folder cfg)).2.fs st1.fs := by
        cases hdl : (download_file net st (some w) (images_folder cfg)).1 with
        | none =>
          simp only [hdl] at h1
          injection h1 with hA hB
          rw [hA]
          exact hmono
        | some p =>
          simp only [hdl] at h1
          injection h1 with hA hB
          rw [hA]
          exact hmono
      obtain ⟨hr1, hr2⟩ := download_replay s (H1 w) hdmono (HfailI w) hs
      cases hdl : (download_file net st (some w) (images_folder cfg)).1 with
      | none =>
        simp only [hdl] at h1
        injection h1 with hA hB
        rw [hdl] at hr1
        simp only [hr1]
        refine ⟨(download_file net s (some w) (images_folder cfg)).2, ?_, hr2⟩
        rw [← hB]
      | some p =>
        simp only [hdl] at h1
        injection h1 with hA hB
        rw [hdl] at hr1
        simp only [hr1]
        refine ⟨(download_file net s (some w) (images_folder cfg)).2, ?_, hr2⟩
        rw [← hB]

theorem coverStep_replay {net : String → NetResult} {cfg : Config}
    {st stA st1 : DiskState} {ch ch' : Element} (s : DiskState)
    (h1 : coverStep net cfg st ch = (stA, ch'))
    (H1 : ∀ v k, net v ≠ .failMid k)
    (HfailI : ∀ v, net v = .failEarly →
      fsLookup st1.fs (os_join (images_folder cfg) (derived_filename v)) = none)
    (hmono : fsLe stA.fs st1.fs)
    (hs : s.fs = st1.fs) :
    ∃ s', coverStep net cfg s ch = (s', ch') ∧ s'.fs = st1.fs := by
  unfold coverStep at h1 ⊢
  cases hf : listFindDesc itunesImageTag ch.children with
  | none =>
    simp only [hf] at h1 ⊢
    injection h1 with hA hB
    exact ⟨s, by rw [← hB], hs⟩
  | some img =>
    simp only [hf] at h1 ⊢
    cases hag : attrGet img "href" with
    | none =>
      simp only [hag] at h1 ⊢
      simp only [download_file] at h1 ⊢
      injection h1 with hA hB
      exact ⟨s, by rw [← hB], hs⟩
    | some w =>
      simp only [hag] at h1 ⊢
      have hdmono : fsLe (download_file net st (some w) (images_folder cfg)).2.fs st1.fs := by
        cases hdl : (download_file net st (some w) (images_folder cfg)).1 with
        | none =>
          simp only [hdl] at h1
          injection h1 with hA hB
          rw [hA]
          exact hmono
        | some p =>
          simp only [hdl] at h1
          injection h1 with hA hB
          rw [hA]
          exact hmono
      obtain ⟨hr1, hr2⟩ := download_replay s (H1 w) hdmono (HfailI w) hs
      cases hdl : (download_file net st (some w) (images_folder cfg)).1 with
      | none =>
        simp only [hdl] at h1
        injection h1 with hA hB
        rw [hdl] at hr1
        simp only [hr1]
        refine ⟨(download_file net s (some w) (images_folder cfg)).2, ?_, hr2⟩
        rw [← hB]
      | some p =>
        simp only [hdl] at h1
        injection h1 with hA hB
        rw [hdl] at hr1
        simp only [hr1]
        refine ⟨(download_file net s (some w) (images_folder cfg)).2, ?_, hr2⟩
        rw [← hB]

theorem processItem_replay {net : String → NetResult} {cfg : Config}
    {st stA st1 : DiskState} {item item' : Element} (s : DiskState)
    (h1 : processItem net cfg st item = .ok (stA, item'))
    (H1 : ∀ v k, net v ≠ .failMid k)
    (HfailM : ∀ v, net v = .failEarly →
      fsLookup st1.fs (os_join (media_folder cfg) (derived_filename v)) = none)
    (HfailI : ∀ v, net v = .failEarly →
      fsLookup st1.fs (os_join (images_folder cfg) (derived_filename v)) = none)
    (hmono : fsLe stA.fs st1.fs)
    (hs : s.fs = st1.fs) :
    ∃ s', processItem net cfg s item = .ok (s', item') ∧ s'.fs = st1.fs := by
  unfold processItem at h1 ⊢
  cases henc : findChild item "enclosure" with
  | none =>
    simp only [henc] at h1 ⊢
    have h2 : imageStep net cfg st item = (stA, item') := Except.ok.inj h1
    obtain ⟨s', hrep, hfs⟩ := imageStep_replay s h2 H1 HfailI hmono hs
    exact ⟨s', by rw [hrep], hfs⟩
  | some enc =>
    simp only [henc] at h1 ⊢
    cases hurl : attrGet enc "url" with
    | none =>
      simp only [hurl] at h1
      exact Except.noConfusion h1
    | some au =>
      simp only [hurl] at h1 ⊢
      have hdmono : fsLe (download_file net st (some au) (media_folder cfg)).2.fs st1.fs := by
        cases hdl : (download_file net st (some au) (media_folder cfg)).1 with
        | none =>
          simp only [hdl] at h1
          have h2 : imageStep net cfg
              (download_file net st (some au) (media_folder cfg)).2 item = (stA, item') :=
            Except.ok.inj h1
          have h3 : (imageStep net cfg
              (download_file net st (some au) (media_folder cfg)).2 item).1 = stA :=
            congrArg Prod.fst h2
          have h4 := imageStep_fsLe net cfg
            (download_file net st (some au) (media_folder cfg)).2 item
          rw [h3] at h4
          exact fsLe_trans h4 hmono
        | some p =>
          simp only [hdl] at h1
          have h2 : imageStep net cfg
              (download_file net st (some au) (media_folder cfg)).2
              (updFirstChild item "enclosure" (fun e =>
                (e.setAttr "url" (os_relpath cfg.cwd p cfg.output_folder)).setAttr "length"
                  ((fsLookup (download_file net st (some au) (media_folder cfg)).2.fs
                    p).getD 0).repr)) = (stA, item') :=
            Except.ok.inj h1
          have h3 := congrArg Prod.fst h2
          have h4 := imageStep_fsLe net cfg
            (download_file net st (some au) (media_folder cfg)).2
            (updFirstChild item "enclosure" (fun e =>
                (e.setAttr "url" (os_relpath cfg.cwd p cfg.output_folder)).setAttr "length"
                  ((fsLookup (download_file net st (some au) (media_folder cfg)).2.fs
                    p).getD 0).repr))
          rw [h3] at h4
          exact fsLe_trans h4 hmono
      obtain ⟨hr1, hr2⟩ := download_replay s (H1 au) hdmono (HfailM au) hs
      cases hdl : (download_file net st (some au) (media_folder cfg)).1 with
      | none =>
        simp only [hdl] at h1
        rw [hdl] at hr1
        simp only [hr1]
        have h2 : imageStep net cfg
            (download_file net st (some au) (media_folder cfg)).2 item = (stA, item') :=
          Except.ok.inj h1
        obtain ⟨s', hrep, hfs⟩ :=
          imageStep_replay (download_file net s (some au) (media_folder cfg)).2
            h2 H1 HfailI hmono hr2
        exact ⟨s', by rw [hrep], hfs⟩
      | some p =>
        simp only [hdl] at h1
        rw [hdl] at hr1
        simp only [hr1]
        have hsucc : download_file net st (some au) (media_folder cfg) =
            (some p, (download_file net st (some au) (media_folder cfg)).2) := by
          rw [← hdl]
        obtain ⟨n, hn⟩ := download_file_success_lookup hsucc
        have hlen1 : fsLookup st1.fs p = some n := hdmono _ _ hn
        rw [hn] at h1
        rw [hr2, hlen1]
        have h2 : imageStep net cfg
            (download_file net st (some au) (media_folder cfg)).2
            (updFirstChild item "enclosure" (fun e =>
              (e.setAttr "url" (os_relpath cfg.cwd p cfg.output_folder)).setAttr "length"
                ((some n).getD 0).repr)) = (stA, item') :=
          Except.ok.inj h1
        obtain ⟨s', hrep, hfs⟩ :=
          imageStep_replay (download_file net s (some au) (media_folder cfg)).2
            h2 H1 HfailI hmono hr2
        exact ⟨s', by rw [hrep], hfs⟩

theorem processChildren_replay {net : String → NetResult} {cfg : Config}
    {st1 : DiskState}
    (H1 : ∀ v k, net v ≠ .failMid k)
    (HfailM : ∀ v, net v = .failEarly →
      fsLookup st1.fs (os_join (media_folder cfg) (derived_filename v)) = none)
    (HfailI : ∀ v, net v = .failEarly →
      fsLookup st1.fs (os_join (images_folder cfg) (derived_filename v)) = none) :
    ∀ {l : List Element} {st stA : DiskState} {l' : List Element} (s : DiskState),
    processChildren net cfg st l = .ok (stA, l') →
    fsLe stA.fs st1.fs → s.fs = st1.fs →
    ∃ s', processChildren net cfg s l = .ok (s', l') ∧ s'.fs = st1.fs := by
  intro l
  induction l with
  | nil =>
    intro st stA l' s h hmono hs
    unfold processChildren at h ⊢
    injection h with h2
    have hB : ([] : List Element) = l' := congrArg Prod.snd h2
    refine ⟨s, ?_, hs⟩
    rw [← hB]
  | cons c rest ih =>
    intro st stA l' s h hmono hs
    unfold processChildren at h ⊢
    by_cases htg : (c.tag == "item") = true
    · rw [if_pos htg] at h ⊢
      cases hpi : processItem net cfg st c with
      | error e =>
        simp only [hpi] at h
        exact Except.noConfusion h
      | ok pr =>
        obtain ⟨stB, c1⟩ := pr
        simp only [hpi] at h
        cases hrest : processChildren net cfg stB rest with
        | error e =>
          simp only [hrest] at h
          exact Except.noConfusion h
        | ok pr2 =>
          obtain ⟨stC, rest2⟩ := pr2
          simp only [hrest] at h
          injection h with h2
          have hA : stC = stA := congrArg Prod.fst h2
          have hB : c1 :: rest2 = l' := congrArg Prod.snd h2
          have hmC : fsLe stC.fs st1.fs := by rw [hA]; exact hmono
          have hmB : fsLe stB.fs st1.fs :=
            fsLe_trans (processChildren_fsLe hrest) hmC
          obtain ⟨s1, hpi2, hfs1⟩ := processItem_replay s hpi H1 HfailM HfailI hmB hs
          obtain ⟨s2, hrest2, hfs2⟩ := ih s1 hrest hmC hfs1
          refine ⟨s2, ?_, hfs2⟩
          simp only [hpi2, hrest2]
          rw [hB]
    · rw [if_neg htg] at h ⊢
      cases hrest : processChildren net cfg st rest with
      | error e =>
        simp only [hrest] at h
        exact Except.noConfusion h
      | ok pr2 =>
        obtain ⟨stC, rest2⟩ := pr2
        simp only [hrest] at h
        injection h with h2
        have hA : stC = stA := congrArg Prod.fst h2
        have hB : c :: rest2 = l' := congrArg Prod.snd h2
        have hmC : fsLe stC.fs st1.fs := by rw [hA]; exact hmono
        obtain ⟨s2, hrest2, hfs2⟩ := ih s hrest hmC hs
        refine ⟨s2, ?_, hfs2⟩
        simp only [hrest2]
        rw [hB]

/-- C4 (corrected): a `download_file` call whose derived destination file
already exists performs no transfer and returns the existing path; and a
second run over the same feed and output directory, started from the
first run's final state, creates no new files and produces the same path
rewrites — provided no first-run transfer died mid-way (a partial file
would be mistaken for the finished download) and no URL that failed
outright has a file at its destination after the first run. -/
theorem claim_C4 (net net0 : String → NetResult) (cfg : Config)
    (now1 now2 : UtcTime) (st stA s0 : DiskState) (root t1 : Element)
    (u folder : String)
    (hne : u.data.isEmpty = false)
    (hhas : fsHas s0.fs (os_join folder (derived_filename u)) = true)
    (H1 : ∀ v k, net v ≠ .failMid k)
    (Hfail : ∀ v, net v = .failEarly →
      fsLookup stA.fs (os_join (media_folder cfg) (derived_filename v)) = none ∧
      fsLookup stA.fs (os_join (images_folder cfg) (derived_filename v)) = none)
    (h1 : process_feed_tree net cfg now1 st root = .ok (stA, t1)) :
    download_file net0 s0 (some u) folder =
      (some (os_join folder (derived_filename u)), s0) ∧
    ∃ st2 t2, process_feed_tree net cfg now2 stA root = .ok (st2, t2) ∧
      st2.fs = stA.fs ∧
      ∃ ch2, t1 = replaceChannel root (update_feed_metadata now1 ch2) ∧
             t2 = replaceChannel root (update_feed_metadata now2 ch2) := by
  refine ⟨@download_file_skip net0 s0 u folder hne hhas, ?_⟩
  simp only [process_feed_tree] at h1 ⊢
  cases hch : findChild root "channel" with
  | none =>
    rw [hch] at h1
    cases h1
  | some ch =>
    simp only [hch] at h1 ⊢
    cases hpc : processChildren net cfg (coverStep net cfg st ch).1
        (coverStep net cfg st ch).2.children with
    | error e =>
      rw [hpc] at h1
      cases h1
    | ok r =>
      obtain ⟨stB, cs2⟩ := r
      rw [hpc] at h1
      simp only at h1
      cases h1
      have HfailM : ∀ v, net v = .failEarly →
          fsLookup stA.fs (os_join (media_folder cfg) (derived_filename v)) = none :=
        fun v hv => (Hfail v hv).1
      have HfailI : ∀ v, net v = .failEarly →
          fsLookup stA.fs (os_join (images_folder cfg) (derived_filename v)) = none :=
        fun v hv => (Hfail v hv).2
      have hcov1 : coverStep net cfg st ch =
          ((coverStep net cfg st ch).1, (coverStep net cfg st ch).2) := rfl
      have hmonoCov : fsLe (coverStep net cfg st ch).1.fs stA.fs :=
        processChildren_fsLe hpc
      obtain ⟨sC, hcov2, hfsC⟩ := coverStep_replay stA hcov1 H1 HfailI hmonoCov rfl
      obtain ⟨s2, hpc2, hfs2⟩ :=
        processChildren_replay H1 HfailM HfailI sC hpc (fsLe_refl stA.fs) hfsC
      simp only [hcov2, hpc2]
      exact ⟨s2, replaceChannel root (update_feed_metadata now2
          (Element.mk (coverStep net cfg st ch).2.tag (coverStep net cfg st ch).2.attrib
            (coverStep net cfg st ch).2.textVal cs2)), rfl, hfs2,
        ⟨Element.mk (coverStep net cfg st ch).2.tag (coverStep net cfg st ch).2.attrib
            (coverStep net cfg st ch).2.textVal cs2, rfl, rfl⟩⟩

/-- Witness for C4 on a concrete one-item feed with a reliable network:
the second run over `feed7` from the first run's final state skips the
transfer, keeps the filesystem, and rewrites the same paths. -/
theorem claim_C4_witness :
    ("http://h/a.mp3".data.isEmpty = false) ∧
    fsHas st7out.fs (os_join (media_folder cfgX)
      (derived_filename "http://h/a.mp3")) = true ∧
    (∀ v k, netOk3 v ≠ .failMid k) ∧
    process_feed_tree netOk3 cfgX nowX stEmpty feed7 = .ok (st7out, tree7out) ∧
    (download_file netOk3 st7out (some "http://h/a.mp3") (media_folder cfgX) =
      (some (os_join (media_folder cfgX) (derived_filename "http://h/a.mp3")),
       st7out) ∧
     ∃ st2 t2, process_feed_tree netOk3 cfgX nowX st7out feed7 = .ok (st2, t2) ∧
       st2.fs = st7out.fs ∧
       ∃ ch2, tree7out = replaceChannel feed7 (update_feed_metadata nowX ch2) ∧
              t2 = replaceChannel feed7 (update_feed_metadata nowX ch2)) :=
  ⟨rfl, rfl, fun v k h => NetResult.noConfusion h,
   processTreeF_sound (show processTreeF 20 netOk3 cfgX nowX stEmpty feed7 =
      some (.ok (st7out, tree7out)) from rfl),
   claim_C4 netOk3 netOk3 cfgX nowX nowX stEmpty st7out st7out feed7 tree7out
     "http://h/a.mp3" (media_folder cfgX) rfl rfl
     (fun v k h => NetResult.noConfusion h)
     (fun v h => NetResult.noConfusion h)
     (processTreeF_sound (show processTreeF 20 netOk3 cfgX nowX stEmpty feed7 =
        some (.ok (st7out, tree7out)) from rfl))⟩

/-- Counterexample to C4 as stated: with a network that dies after 5
bytes, the first run leaves the enclosure URL remote but deposits a
partial file; the second run mistakes that partial file for the download,
skips the transfer, and rewrites the URL to the local path — the two runs
produce different path rewrites. -/
theorem claim_C4_counterexample :
    process_feed_tree netMid cfgX nowX stEmpty feed7 = .ok (stMid1, feed7) ∧
    process_feed_tree netMid cfgX nowX stMid1 feed7 = .ok (stMid1, treeMid2) ∧
    listFindDesc "enclosure" feed7.children = some encl7 ∧
    attrGet encl7 "url" = some "http://h/a.mp3" ∧
    listFindDesc "enclosure" treeMid2.children = some enclMid2 ∧
    attrGet enclMid2 "url" = some "media/a.mp3" :=
  ⟨processTreeF_sound (show processTreeF 20 netMid cfgX nowX stEmpty feed7 =
      some (.ok (stMid1, feed7)) from rfl),
   processTreeF_sound (show processTreeF 20 netMid cfgX nowX stMid1 feed7 =
      some (.ok (stMid1, treeMid2)) from rfl),
   lfdF_sound (show lfdF 20 "enclosure" feed7.children = some (some encl7) from rfl),
   rfl,
   lfdF_sound (show lfdF 20 "enclosure" treeMid2.children =
      some (some enclMid2) from rfl),
   rfl⟩

end PodcastRss
